import Mathlib

/-!
Verification of the `pyls.utils` module (`src/pyls/utils.py`).

The module is a set of numpy-based statistical preprocessing utilities:
`zscore`, `normalize`, `xcorr` / `_compute_xcorr`, `dummy_code`,
`reverse_dummy_code` and `get_seed`.

Embedding conventions
  * a 2-D numpy array (matrix) is a `List (List ℝ)` of its rows;
  * a grouping vector is a `List ℤ` of labels;
  * exact real arithmetic stands in for floating point, so `Real.sqrt`
    models `np.sqrt` and the functions are stated in exact arithmetic;
  * numpy calls that raise (shape mismatches in boolean indexing, matrix
    multiplication, and `np.row_stack` / `np.column_stack` on an empty
    list of arrays) are embedded with `Except String`;
  * the in-place item assignments of the source (`avg[zero_items] = 0`,
    `zarr[:, zero_items] = 0`, `normal_base[zero_items] = 1`,
    `normed[zero_items] = 0`) only ever touch arrays freshly created
    inside the call; a small heap model (`Store`, at the end of the
    definitions) makes the allocations and writes explicit so that the
    no-caller-mutation property can be stated.
-/

noncomputable section

open scoped Classical

namespace pyls

/-- A 2-D numpy array, as the list of its rows. -/
abbrev Mat := List (List ℝ)

/-- Entry `M[i, c]` of a matrix (0 outside the stored structure). -/
def entry (M : Mat) (i c : ℕ) : ℝ := (M.getD i []).getD c 0

/-- Column `c` of a matrix: `M[:, c]`. -/
def col (M : Mat) (c : ℕ) : List ℝ := M.map (fun r => r.getD c 0)

/-- Number of columns of a matrix, read off from its first row
(the rectangular shape a numpy 2-D array always has). -/
def width (M : Mat) : ℕ := (M.headD []).length

/-- Mean of a vector: `v.mean()` (0 for the empty vector, where numpy
would warn and produce NaN; the claims never touch that case). -/
def mean (v : List ℝ) : ℝ := v.sum / v.length

/-- Population variance of a vector (`N` divisor), as in `arr.std(axis=0)**2`. -/
def pvar (v : List ℝ) : ℝ := ((v.map (fun x => (x - mean v) ^ 2)).sum) / v.length

/-- Population standard deviation: `arr.std(axis=0)` for one column. -/
def pstd (v : List ℝ) : ℝ := Real.sqrt (pvar v)

/-- Euclidean (L2) norm of a vector: `np.linalg.norm` along one slice. -/
def l2norm (v : List ℝ) : ℝ := Real.sqrt ((v.map (fun x => x ^ 2)).sum)

/-- The function `np.unique`: the distinct values of a vector in ascending
order (`List.dedup` keeps one copy of each value, `insertionSort` orders
them). -/
def np_unique (g : List ℤ) : List ℤ := (g.dedup).insertionSort (· ≤ ·)

/-- Boolean-mask row selection `X[grouping == grp]`: the rows of `X` whose
position carries label `grp` in `grouping`. -/
def maskRows (X : Mat) (g : List ℤ) (grp : ℤ) : Mat :=
  ((g.zip X).filter (fun p => p.1 == grp)).map Prod.snd

/-- The expression `(arr - avg) / stdev` of `zscore` after the masking
`avg[zero_items], stdev[zero_items] = 0, 1` of zero-variance columns. -/
def zscoreRaw (X : Mat) : Mat :=
  X.map (fun r => (List.range r.length).map (fun c =>
    (r.getD c 0 - (if pstd (col X c) = 0 then 0 else mean (col X c))) /
    (if pstd (col X c) = 0 then 1 else pstd (col X c))))

/-- The final masking `zarr[:, zero_items] = 0` of `zscore`: columns of `X`
with zero standard deviation are overwritten with 0 in `Z`. -/
def zeroColsMask (Z X : Mat) : Mat :=
  Z.map (fun r => (List.range r.length).map (fun c =>
    if pstd (col X c) = 0 then 0 else r.getD c 0))

/-- The function `zscore` of `pyls.utils`: per-column standardization,
zero-variance columns mapped to 0. -/
def zscore (X : Mat) : Mat := zeroColsMask (zscoreRaw X) X

/-- The expression `normed / normal_base` of `normalize`, after
`normal_base[zero_items] = 1`: division of every entry by the norm of its
slice (column for `axis = 0`, row otherwise), zero norms replaced by 1. -/
def normalizeDiv (X : Mat) (axis : ℕ) : Mat :=
  X.map (fun r => (List.range r.length).map (fun c =>
    r.getD c 0 /
      (if (if axis = 0 then l2norm (col X c) else l2norm r) = 0 then 1
       else if axis = 0 then l2norm (col X c) else l2norm r)))

/-- The final assignment `normed[zero_items] = 0` of `normalize`.
`zero_items = np.where(normal_base == 0)` indexes the `keepdims` norm
array of shape `(1, K)` (axis 0) or `(N, 1)` (axis 1), so the advanced
integer indexing `normed[zero_items] = 0` writes the single entry of row 0
(resp. column 0) of each zero-norm slice, not the whole slice. -/
def zeroSliceMask (Z X : Mat) (axis : ℕ) : Mat :=
  (List.range Z.length).map (fun i =>
    (List.range ((Z.getD i []).length)).map (fun c =>
      if (if axis = 0 then l2norm (col X c) else l2norm (X.getD i [])) = 0 ∧
         (if axis = 0 then i else c) = 0 then 0
      else (Z.getD i []).getD c 0))

/-- The function `normalize` of `pyls.utils` (`axis` passed explicitly;
the source defaults it to 0). -/
def normalize (X : Mat) (axis : ℕ) : Mat := zeroSliceMask (normalizeDiv X axis) X axis

/-- The product `A.T @ B` for `A : N×K`, `B : N×J`, an entrywise
transcription of numpy matrix multiplication. -/
def matTmul (A B : Mat) : Mat :=
  (List.range (width A)).map (fun a =>
    (List.range (width B)).map (fun b =>
      ((A.zip B).map (fun p => p.1.getD a 0 * p.2.getD b 0)).sum))

/-- The expression `(Ynz.T @ Xnz) / (Xnz.shape[0] - 1)` of `_compute_xcorr`. -/
def xprod (Xnz Ynz : Mat) : Mat :=
  (matTmul Ynz Xnz).map (fun r => r.map (fun v => v / ((Xnz.length : ℝ) - 1)))

/-- The arithmetic of `_compute_xcorr`:
`(normalize(zscore(Y)).T @ normalize(zscore(X))) / (N - 1)`. -/
def _compute_xcorr (X Y : Mat) : Mat :=
  xprod (normalize (zscore X) 0) (normalize (zscore Y) 0)

/-- The function `_compute_xcorr` with the shape check numpy enforces at
`Ynz.T @ Xnz` (inner dimensions, i.e. the two row counts, must agree). -/
def _compute_xcorrE (X Y : Mat) : Except String Mat :=
  if (normalize (zscore Y) 0).length = (normalize (zscore X) 0).length then
    Except.ok (_compute_xcorr X Y)
  else Except.error "matmul: input operand has a mismatch in its core dimension"

/-- Left-to-right effectful map, the evaluation order of a Python list
comprehension whose body can raise. -/
def mapE {α β : Type} (f : α → Except String β) : List α → Except String (List β)
  | [] => Except.ok []
  | a :: as => do
    let b ← f a
    let bs ← mapE f as
    pure (b :: bs)

/-- The call `np.row_stack(blocks)`: raises on an empty list of arrays,
raises when the blocks do not all have the same number of columns, and
otherwise concatenates the rows. -/
def row_stackE (ms : List Mat) : Except String Mat :=
  match ms with
  | [] => Except.error "need at least one array to concatenate"
  | m :: rest =>
    if rest.all (fun m2 => width m2 = width m) then Except.ok ((m :: rest).flatten)
    else Except.error "all the input array dimensions must match exactly"

/-- One iteration of the comprehension in `xcorr`:
`_compute_xcorr(X[grouping == grp], Y[grouping == grp])`, including the
length check numpy performs on each boolean index. -/
def groupBlockE (X Y : Mat) (g : List ℤ) (grp : ℤ) : Except String Mat :=
  if g.length = X.length then
    if g.length = Y.length then _compute_xcorrE (maskRows X g grp) (maskRows Y g grp)
    else Except.error "boolean index did not match indexed array"
  else Except.error "boolean index did not match indexed array"

/-- The function `xcorr` of `pyls.utils`: with no grouping a direct call to
`_compute_xcorr`; with a grouping, one `_compute_xcorr` per unique label in
ascending order, the results stacked row-wise by `np.row_stack`. -/
def xcorrE (X Y : Mat) (grouping : Option (List ℤ)) : Except String Mat :=
  match grouping with
  | none => _compute_xcorrE X Y
  | some g => do
    let blocks ← mapE (groupBlockE X Y g) (np_unique g)
    row_stackE blocks

/-- The rows built by `np.column_stack([(grouping == grp).astype(int) for
grp in groups])`: entry `(i, c)` is 1 exactly when `grouping[i]` equals the
`c`-th unique label. -/
def dummy_rows (grouping : List ℤ) : Mat :=
  grouping.map (fun l => (np_unique grouping).map (fun grp => if l = grp then (1 : ℝ) else 0))

/-- The function `dummy_code` of `pyls.utils`. `np.column_stack` raises on
an empty list of arrays, which happens exactly when `grouping` is empty. -/
def dummy_code (grouping : List ℤ) : Except String Mat :=
  if np_unique grouping = [] then Except.error "need at least one array to concatenate"
  else Except.ok (dummy_rows grouping)

/-- The list `[grp * n for n, grp in enumerate(Y.T, 1)]`: the `c`-th row of
`Y.T` is column `c` of `Y`, scaled by its 1-based position. -/
def rdc_scaled (Y : Mat) : Mat :=
  (List.range (width Y)).map (fun c => (col Y c).map (fun v => v * ((c : ℝ) + 1)))

/-- The value `np.row_stack(scaled).sum(axis=0)` on the successful path:
the columnwise sum of the stacked scaled rows. -/
def rdc_core (Y : Mat) : List ℝ :=
  match rdc_scaled Y with
  | [] => []
  | r :: rs => rs.foldl (fun a b => a.zipWith (fun u v => u + v) b) r

/-- The function `reverse_dummy_code` of `pyls.utils`. `np.row_stack`
raises on an empty list of arrays, which happens exactly when `Y` has no
columns. -/
def reverse_dummy_code (Y : Mat) : Except String (List ℝ) :=
  match rdc_scaled Y with
  | [] => Except.error "need at least one array to concatenate"
  | r :: rs => Except.ok (rs.foldl (fun a b => a.zipWith (fun u v => u + v) b) r)

/-- A Python value as dispatched on by `get_seed`: `None`, an `int`, an
existing `np.random.RandomState` instance (carrying an identity token so
that identity preservation can be stated), or a value of any other type. -/
inductive PyVal where
  | none : PyVal
  | int : ℤ → PyVal
  | randomState : ℕ → PyVal
  | other : ℕ → PyVal
deriving DecidableEq

/-- What `get_seed` can return: a freshly constructed
`np.random.RandomState(seed)`, the caller's existing instance (by
identity), or the shared global `np.random` module. -/
inductive RNG where
  | newState : ℤ → RNG
  | instanceRef : ℕ → RNG
  | npRandom : RNG
deriving DecidableEq

/-- Check `isinstance(seed, int)`. -/
def PyVal.isInt : PyVal → Bool
  | PyVal.int _ => true
  | _ => false

/-- Check `isinstance(seed, np.random.RandomState)`. -/
def PyVal.isRandomState : PyVal → Bool
  | PyVal.randomState _ => true
  | _ => false

/-- The integer payload of an `int` value. -/
def PyVal.intVal : PyVal → ℤ
  | PyVal.int n => n
  | _ => 0

/-- The identity token of a `RandomState` value. -/
def PyVal.stateId : PyVal → ℕ
  | PyVal.randomState i => i
  | _ => 0

/-- The function `get_seed` of `pyls.utils`: `if seed is not None`, an
`isinstance` chain on `int` and `np.random.RandomState`; every other case
falls through to `return np.random`. -/
def get_seed (seed : PyVal) : RNG :=
  if seed = PyVal.none then RNG.npRandom
  else if seed.isInt then RNG.newState seed.intVal
  else if seed.isRandomState then RNG.instanceRef seed.stateId
  else RNG.npRandom

/-- A heap cell: a 2-D real array, an integer label vector, or a 1-D real
vector (the result type of `reverse_dummy_code`). -/
inductive PyArr where
  | mat : Mat → PyArr
  | ivec : List ℤ → PyArr
  | rvec : List ℝ → PyArr

/-- A numpy heap: allocated arrays in allocation order; references are
indices into the list. -/
abbrev Store := List PyArr

/-- Dereference a matrix cell. -/
def readM (s : Store) (r : ℕ) : Mat :=
  match s.getD r (PyArr.mat []) with
  | PyArr.mat m => m
  | _ => []

/-- Dereference an integer-vector cell. -/
def readI (s : Store) (r : ℕ) : List ℤ :=
  match s.getD r (PyArr.ivec []) with
  | PyArr.ivec v => v
  | _ => []

/-- Allocate a fresh array (`np.array(...)` and every numpy expression
that builds a new array) and return its reference. -/
def alloc (s : Store) (v : PyArr) : ℕ × Store := (s.length, s ++ [v])

/-- In-place item assignment `cell[...] = ...` on an existing array. -/
def writeA (s : Store) (r : ℕ) (v : PyArr) : Store := s.set r v

/-- Heap-level `zscore`: `arr = np.array(X)` copies the caller's array into
a fresh cell, `zarr = (arr - avg) / stdev` allocates the result, and the
item assignment `zarr[:, zero_items] = 0` writes only to that fresh cell
(the masking of `avg`/`stdev` touches the fresh arrays returned by
`arr.mean`/`arr.std` and is folded into `zscoreRaw`). -/
def zscoreS (s : Store) (x : ℕ) : ℕ × Store :=
  let p1 := alloc s (PyArr.mat (readM s x))
  let p2 := alloc p1.2 (PyArr.mat (zscoreRaw (readM p1.2 p1.1)))
  (p2.1, writeA p2.2 p2.1 (PyArr.mat (zeroColsMask (readM p2.2 p2.1) (readM p2.2 p1.1))))

/-- Heap-level `normalize`: `normed = np.array(X)` copies the caller's
array, the division `normed / normal_base` allocates a new array that the
name `normed` is rebound to, and `normed[zero_items] = 0` writes only to
that new cell (the masking of `normal_base` touches the fresh array
returned by `np.linalg.norm` and is folded into `normalizeDiv`). -/
def normalizeS (s : Store) (x : ℕ) (axis : ℕ) : ℕ × Store :=
  let p1 := alloc s (PyArr.mat (readM s x))
  let p2 := alloc p1.2 (PyArr.mat (normalizeDiv (readM p1.2 p1.1) axis))
  (p2.1, writeA p2.2 p2.1 (PyArr.mat (zeroSliceMask (readM p2.2 p2.1) (readM p2.2 p1.1) axis)))

/-- Heap-level `_compute_xcorr` (successful path): the two
`normalize(zscore(...))` chains in source order, then one allocation for
`(Ynz.T @ Xnz) / (Xnz.shape[0] - 1)`. -/
def _compute_xcorrS (s : Store) (x y : ℕ) : ℕ × Store :=
  let q1 := zscoreS s x
  let q2 := normalizeS q1.2 q1.1 0
  let q3 := zscoreS q2.2 y
  let q4 := normalizeS q3.2 q3.1 0
  let p := alloc q4.2 (PyArr.mat (xprod (readM q4.2 q2.1) (readM q4.2 q4.1)))
  (p.1, p.2)

/-- Heap-level comprehension of `xcorr`: for each group, the two boolean
selections `X[grouping == grp]` / `Y[grouping == grp]` allocate fresh
arrays, then `_compute_xcorr` runs on them. -/
def xcorrBlocksS (x y : ℕ) (g : List ℤ) : List ℤ → Store → List ℕ × Store
  | [], s => ([], s)
  | grp :: rest, s =>
    let a1 := alloc s (PyArr.mat (maskRows (readM s x) g grp))
    let a2 := alloc a1.2 (PyArr.mat (maskRows (readM a1.2 y) g grp))
    let b := _compute_xcorrS a2.2 a1.1 a2.1
    let q := xcorrBlocksS x y g rest b.2
    (b.1 :: q.1, q.2)

/-- Heap-level `xcorr` (successful path): either a direct
`_compute_xcorr`, or the per-group blocks followed by the allocation
`np.row_stack` performs for its result. -/
def xcorrS (s : Store) (x y : ℕ) (grouping : Option ℕ) : ℕ × Store :=
  match grouping with
  | Option.none => _compute_xcorrS s x y
  | Option.some gr =>
    let g := readI s gr
    let bs := xcorrBlocksS x y g (np_unique g) s
    let p := alloc bs.2 (PyArr.mat ((bs.1.map (readM bs.2)).flatten))
    (p.1, p.2)

/-- Heap-level `dummy_code` (successful path): the indicator columns and
`np.column_stack` build fresh arrays; one allocation for the result. -/
def dummy_codeS (s : Store) (g : ℕ) : ℕ × Store :=
  let p := alloc s (PyArr.mat (dummy_rows (readI s g)))
  (p.1, p.2)

/-- Heap-level `reverse_dummy_code` (successful path): the scaled columns,
`np.row_stack` and `.sum(0)` build fresh arrays; one allocation for the
result. -/
def reverse_dummy_codeS (s : Store) (y : ℕ) : ℕ × Store :=
  let p := alloc s (PyArr.rvec (rdc_core (readM s y)))
  (p.1, p.2)

/-- Spec-side formulation for `xcorr`, following the specification text:
the rows of `X` at exactly the index positions `i` with `g[i] = grp` (used
to compare with the boolean-mask selection the source performs). -/
def groupRowsSpec (X : Mat) (g : List ℤ) (grp : ℤ) : Mat :=
  (List.range g.length).filterMap (fun i =>
    if g.getD i 0 = grp then Option.some (X.getD i []) else Option.none)

/-! ### Basic list lemmas -/

theorem getD_rangeMap {α : Type} (f : ℕ → α) (d : α) {i n : ℕ} (h : i < n) :
    ((List.range n).map f).getD i d = f i := by
  rw [List.getD_eq_getElem _ _ (by simpa using h)]
  simp

theorem getD_map {α β : Type} (f : α → β) (d : β) (a : α) {l : List α} {i : ℕ}
    (h : i < l.length) : (l.map f).getD i d = f (l.getD i a) := by
  rw [List.getD_eq_getElem _ _ (by simpa using h), List.getD_eq_getElem _ _ h]
  simp

theorem rangeMap_getD_eq_map {α β : Type} (f : α → β) (d : α) (l : List α) :
    (List.range l.length).map (fun c => f (l.getD c d)) = l.map f := by
  induction l with
  | nil => simp
  | cons x xs ih =>
    rw [List.length_cons, List.range_succ_eq_map, List.map_cons, List.map_map]
    simp only [Function.comp_def, List.getD_cons_succ, List.getD_cons_zero]
    rw [ih, List.map_cons]

theorem sum_rangeMap (f : ℕ → ℝ) (n : ℕ) :
    ((List.range n).map f).sum = ∑ i in Finset.range n, f i := by
  induction n with
  | zero => simp
  | succ m ih => rw [List.range_succ, List.map_append, List.sum_append,
      Finset.sum_range_succ, ih]; simp

theorem sum_zip_map {α β : Type} (f : α × β → ℝ) (da : α) (db : β) :
    ∀ (A : List α) (B : List β), A.length = B.length →
      ((A.zip B).map f).sum = ∑ i in Finset.range A.length, f (A.getD i da, B.getD i db) := by
  intro A
  induction A with
  | nil => intro B _; simp
  | cons a as ih =>
    intro B hB
    match B with
    | [] => simp at hB
    | b :: bs =>
      rw [List.zip_cons_cons, List.map_cons, List.sum_cons, List.length_cons,
        Finset.sum_range_succ']
      simp only [List.getD_cons_succ, List.getD_cons_zero]
      rw [ih bs (by simpa using hB)]
      ring

theorem sum_nonneg_eq_zero_iff {l : List ℝ} (h : ∀ x ∈ l, 0 ≤ x) :
    l.sum = 0 ↔ ∀ x ∈ l, x = 0 := by
  induction l with
  | nil => simp
  | cons a as ih =>
    rw [List.sum_cons]
    have ha : 0 ≤ a := h a (by simp)
    have has : 0 ≤ as.sum := List.sum_nonneg (fun x hx => h x (by simp [hx]))
    constructor
    · intro h0
      have : a = 0 ∧ as.sum = 0 := (add_eq_zero_iff_of_nonneg ha has).mp h0
      intro x hx
      rcases List.mem_cons.mp hx with rfl | hx
      · exact this.1
      · exact (ih (fun y hy => h y (by simp [hy]))).mp this.2 x hx
    · intro hall
      have ha0 : a = 0 := hall a (by simp)
      have : as.sum = 0 := (ih (fun y hy => h y (by simp [hy]))).mpr
        (fun x hx => hall x (by simp [hx]))
      rw [ha0, this, add_zero]

theorem sum_map_sub_const (l : List ℝ) (μ : ℝ) :
    (l.map (fun x => x - μ)).sum = l.sum - l.length * μ := by
  induction l with
  | nil => simp
  | cons a as ih => simp [ih]; ring

theorem sum_map_div (l : List ℝ) (f : ℝ → ℝ) (s : ℝ) :
    (l.map (fun x => f x / s)).sum = (l.map f).sum / s := by
  induction l with
  | nil => simp
  | cons a as ih => simp [ih]; ring

/-! ### Vector statistics lemmas -/

theorem sumsq_nonneg (v : List ℝ) : 0 ≤ (v.map (fun x => x ^ 2)).sum := by
  apply List.sum_nonneg
  intro x hx
  simp only [List.mem_map] at hx
  obtain ⟨y, _, rfl⟩ := hx
  positivity

theorem pvar_nonneg (v : List ℝ) : 0 ≤ pvar v := by
  unfold pvar
  apply div_nonneg _ (by positivity)
  apply List.sum_nonneg
  intro x hx
  simp only [List.mem_map] at hx
  obtain ⟨y, _, rfl⟩ := hx
  positivity

theorem pstd_nonneg (v : List ℝ) : 0 ≤ pstd v := Real.sqrt_nonneg _

theorem pstd_eq_zero_iff (v : List ℝ) : pstd v = 0 ↔ pvar v = 0 := by
  unfold pstd
  rw [Real.sqrt_eq_zero (pvar_nonneg v)]

theorem pstd_nil : pstd [] = 0 := by
  simp [pstd, pvar]

theorem ne_nil_of_pstd_ne_zero {v : List ℝ} (h : pstd v ≠ 0) : v ≠ [] := by
  intro hv; rw [hv, pstd_nil] at h; exact h rfl

theorem l2norm_nonneg (v : List ℝ) : 0 ≤ l2norm v := Real.sqrt_nonneg _

theorem l2norm_eq_zero_iff (v : List ℝ) : l2norm v = 0 ↔ ∀ x ∈ v, x = 0 := by
  have hterms : ∀ x ∈ v.map (fun y => y ^ 2), 0 ≤ x := by
    intro x hx
    simp only [List.mem_map] at hx
    obtain ⟨y, _, rfl⟩ := hx
    positivity
  unfold l2norm
  rw [Real.sqrt_eq_zero (sumsq_nonneg v), sum_nonneg_eq_zero_iff hterms]
  constructor
  · intro h x hx
    have := h (x ^ 2) (List.mem_map.mpr ⟨x, hx, rfl⟩)
    exact pow_eq_zero_iff (by norm_num) |>.mp this
  · intro h y hy
    simp only [List.mem_map] at hy
    obtain ⟨x, hx, rfl⟩ := hy
    rw [h x hx]; ring

theorem mean_center_div {v : List ℝ} (hv : v ≠ []) (s : ℝ) :
    mean (v.map (fun x => (x - mean v) / s)) = 0 := by
  have hn : (v.length : ℝ) ≠ 0 := Nat.cast_ne_zero.mpr (List.length_pos.mpr hv).ne'
  unfold mean
  rw [sum_map_div, sum_map_sub_const]
  rw [show v.sum - (v.length : ℝ) * (v.sum / v.length) = 0 by field_simp]
  simp

theorem pvar_center_div {v : List ℝ} (hv : v ≠ []) (s : ℝ) :
    pvar (v.map (fun x => (x - mean v) / s)) = pvar v / s ^ 2 := by
  have h0 : mean (v.map (fun x => (x - mean v) / s)) = 0 := mean_center_div hv s
  unfold pvar
  rw [h0, List.map_map, List.length_map]
  have hcomp : ((fun x => (x - 0) ^ 2) ∘ fun x => (x - mean v) / s) =
      fun x => ((x - mean v) ^ 2) / s ^ 2 := by
    funext x; simp [div_pow]
  rw [hcomp, sum_map_div, div_div, mul_comm, ← div_div]

theorem pstd_center_div {v : List ℝ} (hσ : pstd v ≠ 0) :
    pstd (v.map (fun x => (x - mean v) / pstd v)) = 1 := by
  have hv : v ≠ [] := ne_nil_of_pstd_ne_zero hσ
  have hvar : pvar v ≠ 0 := fun h => hσ ((pstd_eq_zero_iff v).mpr h)
  have h1 : pvar (v.map (fun x => (x - mean v) / pstd v)) = pvar v / pstd v ^ 2 :=
    pvar_center_div hv (pstd v)
  show Real.sqrt (pvar (v.map (fun x => (x - mean v) / pstd v))) = 1
  rw [h1, show pstd v ^ 2 = pvar v from Real.sq_sqrt (pvar_nonneg v)]
  rw [div_self hvar, Real.sqrt_one]

theorem l2norm_map_div {v : List ℝ} (hs : l2norm v ≠ 0) :
    l2norm (v.map (fun x => x / l2norm v)) = 1 := by
  have hpos : 0 < l2norm v := lt_of_le_of_ne (l2norm_nonneg v) (Ne.symm hs)
  have hcomp : ((fun x => x ^ 2) ∘ fun x => x / l2norm v) =
      fun x => (x ^ 2) / l2norm v ^ 2 := by
    funext x; simp [div_pow]
  show Real.sqrt (((v.map (fun x => x / l2norm v)).map (fun x => x ^ 2)).sum) = 1
  rw [List.map_map, hcomp, sum_map_div]
  rw [Real.sqrt_div (sumsq_nonneg v) _]
  rw [Real.sqrt_sq (le_of_lt hpos)]
  exact div_self hs

/-! ### Shape and entry lemmas for `zscore` and `normalize` -/

theorem length_zscoreRaw (X : Mat) : (zscoreRaw X).length = X.length := by
  simp [zscoreRaw]

theorem length_zeroColsMask (Z X : Mat) : (zeroColsMask Z X).length = Z.length := by
  simp [zeroColsMask]

theorem length_zscore (X : Mat) : (zscore X).length = X.length := by
  simp [zscore, length_zeroColsMask, length_zscoreRaw]

theorem zscoreRaw_row (X : Mat) {i : ℕ} (h : i < X.length) :
    (zscoreRaw X).getD i [] = (List.range ((X.getD i []).length)).map (fun c =>
      ((X.getD i []).getD c 0 - (if pstd (col X c) = 0 then 0 else mean (col X c))) /
      (if pstd (col X c) = 0 then 1 else pstd (col X c))) := by
  unfold zscoreRaw
  rw [getD_map _ _ [] h]

theorem zeroColsMask_row (Z X : Mat) {i : ℕ} (h : i < Z.length) :
    (zeroColsMask Z X).getD i [] = (List.range ((Z.getD i []).length)).map (fun c =>
      if pstd (col X c) = 0 then 0 else (Z.getD i []).getD c 0) := by
  unfold zeroColsMask
  rw [getD_map _ _ [] h]

theorem zscore_row_length (X : Mat) {i : ℕ} (h : i < X.length) :
    ((zscore X).getD i []).length = (X.getD i []).length := by
  unfold zscore
  rw [zeroColsMask_row _ _ (by rw [length_zscoreRaw]; exact h), zscoreRaw_row X h]
  simp

theorem zscore_entry (X : Mat) {i c : ℕ} (hi : i < X.length)
    (hc : c < (X.getD i []).length) :
    entry (zscore X) i c =
      if pstd (col X c) = 0 then 0
      else (entry X i c - mean (col X c)) / pstd (col X c) := by
  unfold entry zscore
  rw [zeroColsMask_row _ _ (by rw [length_zscoreRaw]; exact hi), zscoreRaw_row X hi]
  rw [getD_rangeMap _ _ (by simpa using hc)]
  rw [getD_rangeMap _ _ hc]
  by_cases h : pstd (col X c) = 0 <;> simp [h]

theorem length_normalizeDiv (X : Mat) (axis : ℕ) : (normalizeDiv X axis).length = X.length := by
  simp [normalizeDiv]

theorem length_zeroSliceMask (Z X : Mat) (axis : ℕ) :
    (zeroSliceMask Z X axis).length = Z.length := by
  simp [zeroSliceMask]

theorem length_normalize (X : Mat) (axis : ℕ) : (normalize X axis).length = X.length := by
  simp [normalize, length_zeroSliceMask, length_normalizeDiv]

theorem normalizeDiv_row (X : Mat) (axis : ℕ) {i : ℕ} (h : i < X.length) :
    (normalizeDiv X axis).getD i [] = (List.range ((X.getD i []).length)).map (fun c =>
      (X.getD i []).getD c 0 /
        (if (if axis = 0 then l2norm (col X c) else l2norm (X.getD i [])) = 0 then 1
         else if axis = 0 then l2norm (col X c) else l2norm (X.getD i []))) := by
  unfold normalizeDiv
  rw [getD_map _ _ [] h]

theorem zeroSliceMask_row (Z X : Mat) (axis : ℕ) {i : ℕ} (h : i < Z.length) :
    (zeroSliceMask Z X axis).getD i [] = (List.range ((Z.getD i []).length)).map (fun c =>
      if (if axis = 0 then l2norm (col X c) else l2norm (X.getD i [])) = 0 ∧
         (if axis = 0 then i else c) = 0 then 0
      else (Z.getD i []).getD c 0) := by
  unfold zeroSliceMask
  rw [getD_rangeMap _ _ h]

theorem normalize_row_length (X : Mat) (axis : ℕ) {i : ℕ} (h : i < X.length) :
    ((normalize X axis).getD i []).length = (X.getD i []).length := by
  unfold normalize
  rw [zeroSliceMask_row _ _ _ (by rw [length_normalizeDiv]; exact h),
    normalizeDiv_row X axis h]
  simp

theorem normalize_entry (X : Mat) (axis : ℕ) {i c : ℕ} (hi : i < X.length)
    (hc : c < (X.getD i []).length) :
    entry (normalize X axis) i c =
      if (if axis = 0 then l2norm (col X c) else l2norm (X.getD i [])) = 0 then
        (if (if axis = 0 then i else c) = 0 then 0 else entry X i c)
      else entry X i c / (if axis = 0 then l2norm (col X c) else l2norm (X.getD i [])) := by
  unfold entry normalize
  rw [zeroSliceMask_row _ _ _ (by rw [length_normalizeDiv]; exact hi),
    normalizeDiv_row X axis hi]
  rw [getD_rangeMap _ _ (by simpa using hc)]
  rw [getD_rangeMap _ _ hc]
  by_cases h : (if axis = 0 then l2norm (col X c) else l2norm (X.getD i [])) = 0
  · by_cases h2 : (if axis = 0 then i else c) = 0
    · rw [if_pos ⟨h, h2⟩, if_pos h, if_pos h2]
    · rw [if_neg (fun a => h2 a.2), if_pos h, if_neg h2, if_pos h, div_one]
  · rw [if_neg (fun a => h a.1), if_neg h, if_neg h]

/-! ### Column lemmas -/

theorem getD_mem_of_lt {α : Type} {l : List α} {n : ℕ} (d : α) (h : n < l.length) :
    l.getD n d ∈ l := by
  rw [List.getD_eq_getElem _ _ h]
  exact List.getElem_mem h

theorem length_col (M : Mat) (c : ℕ) : (col M c).length = M.length := by
  simp [col]

theorem col_getD (M : Mat) (c : ℕ) {i : ℕ} (h : i < M.length) :
    (col M c).getD i 0 = entry M i c := by
  unfold col entry
  rw [getD_map _ _ [] h]

theorem row_length_of_rect {X : Mat} {J : ℕ} (hrect : ∀ r ∈ X, r.length = J)
    {i : ℕ} (h : i < X.length) : (X.getD i []).length = J :=
  hrect _ (getD_mem_of_lt [] h)

theorem col_zscore_of_ne {X : Mat} {J : ℕ} (hrect : ∀ r ∈ X, r.length = J)
    {c : ℕ} (hc : c < J) (hσ : pstd (col X c) ≠ 0) :
    col (zscore X) c = (col X c).map
      (fun x => (x - mean (col X c)) / pstd (col X c)) := by
  apply List.ext_getElem
  · rw [length_col, length_zscore, List.length_map, length_col]
  · intro i h1 h2
    rw [length_col, length_zscore] at h1
    rw [← List.getD_eq_getElem _ 0 h2, ← List.getD_eq_getElem _ 0 (by
      rwa [length_col, length_zscore])]
    rw [col_getD _ _ (by rwa [length_zscore])]
    rw [getD_map _ 0 0 (by rwa [length_col])]
    rw [col_getD _ _ h1]
    rw [zscore_entry X h1 (by rw [row_length_of_rect hrect h1]; exact hc)]
    rw [if_neg hσ]

theorem col_normalize0_of_ne {X : Mat} {J : ℕ} (hrect : ∀ r ∈ X, r.length = J)
    {c : ℕ} (hc : c < J) (hs : l2norm (col X c) ≠ 0) :
    col (normalize X 0) c = (col X c).map (fun x => x / l2norm (col X c)) := by
  apply List.ext_getElem
  · rw [length_col, length_normalize, List.length_map, length_col]
  · intro i h1 h2
    rw [length_col, length_normalize] at h1
    rw [← List.getD_eq_getElem _ 0 h2, ← List.getD_eq_getElem _ 0 (by
      rwa [length_col, length_normalize])]
    rw [col_getD _ _ (by rwa [length_normalize])]
    rw [getD_map _ 0 0 (by rwa [length_col])]
    rw [col_getD _ _ h1]
    rw [normalize_entry X 0 h1 (by rw [row_length_of_rect hrect h1]; exact hc)]
    simp only [eq_self_iff_true, if_true]
    rw [if_neg hs]

theorem normalize1_row_of_ne {X : Mat} {i : ℕ} (hi : i < X.length)
    (hs : l2norm (X.getD i []) ≠ 0) :
    (normalize X 1).getD i [] = (X.getD i []).map
      (fun x => x / l2norm (X.getD i [])) := by
  unfold normalize
  rw [zeroSliceMask_row _ _ _ (by rw [length_normalizeDiv]; exact hi),
    normalizeDiv_row X 1 hi]
  simp only [if_neg (one_ne_zero (α := ℕ))]
  have hlen : ((List.range ((X.getD i []).length)).map (fun c =>
      (X.getD i []).getD c 0 /
        (if l2norm (X.getD i []) = 0 then 1 else l2norm (X.getD i [])))).length =
      (X.getD i []).length := by simp
  rw [hlen]
  rw [← rangeMap_getD_eq_map (fun x => x / l2norm (X.getD i [])) 0 (X.getD i [])]
  apply List.map_congr_left
  intro a ha
  rw [List.mem_range] at ha
  rw [if_neg (fun hand => hs hand.1)]
  rw [getD_rangeMap _ _ ha]
  rw [if_neg hs]

/-- C3 (part): a zero-variance input column produces an all-zero output
column; a nonzero-variance one is centered and scaled entrywise. -/
theorem zscore_entry_cases {X : Mat} {J : ℕ} (hrect : ∀ r ∈ X, r.length = J)
    {i c : ℕ} (hi : i < X.length) (hc : c < J) :
    entry (zscore X) i c =
      if pstd (col X c) = 0 then 0
      else (entry X i c - mean (col X c)) / pstd (col X c) :=
  zscore_entry X hi (by rw [row_length_of_rect hrect hi]; exact hc)

/-! ### Claim C3: zscore -/

/-- C3: for every rectangular real matrix `X` with `J` columns, the output
of `zscore` has the same shape; every column of `X` with nonzero population
standard deviation (N divisor) is mapped to that column minus its mean
divided by its population standard deviation — so (in particular for
`N ≥ 2`) the output column has mean exactly 0 and population standard
deviation exactly 1 in exact arithmetic — and every column with zero
standard deviation yields an all-zero output column. The embedding is a
total function on real matrices: no exception is raised and, in the exact
real model, no NaN or Inf value exists to be produced. -/
theorem claim_C3_zscore (X : Mat) (J : ℕ) (hrect : ∀ r ∈ X, r.length = J) :
    ((zscore X).length = X.length ∧
      ∀ i, i < X.length → ((zscore X).getD i []).length = (X.getD i []).length)
  ∧ (∀ c, c < J → pstd (col X c) ≠ 0 →
      col (zscore X) c = (col X c).map
        (fun x => (x - mean (col X c)) / pstd (col X c))
      ∧ (2 ≤ X.length → mean (col (zscore X) c) = 0 ∧ pstd (col (zscore X) c) = 1))
  ∧ (∀ c, c < J → pstd (col X c) = 0 →
      ∀ i, i < X.length → entry (zscore X) i c = 0) := by
  refine ⟨⟨length_zscore X, fun i hi => zscore_row_length X hi⟩, ?_, ?_⟩
  · intro c hc hσ
    have hcol := col_zscore_of_ne hrect hc hσ
    refine ⟨hcol, fun _ => ?_⟩
    have hv : col X c ≠ [] := ne_nil_of_pstd_ne_zero hσ
    rw [hcol]
    exact ⟨mean_center_div hv _, pstd_center_div hσ⟩
  · intro c hc hσ i hi
    rw [zscore_entry_cases hrect hi hc, if_pos hσ]

/-- C3 witness: the concrete matrix `[[1,5],[3,5]]` (column 0 has standard
deviation 1, column 1 is constant). -/
theorem claim_C3_zscore_witness :
    (((zscore [[1,5],[3,5]]).length = ([[1,5],[3,5]] : Mat).length ∧
      ∀ i, i < ([[1,5],[3,5]] : Mat).length →
        ((zscore [[1,5],[3,5]]).getD i []).length =
          (([[1,5],[3,5]] : Mat).getD i []).length)
  ∧ (∀ c, c < 2 → pstd (col [[1,5],[3,5]] c) ≠ 0 →
      col (zscore [[1,5],[3,5]]) c = (col [[1,5],[3,5]] c).map
        (fun x => (x - mean (col [[1,5],[3,5]] c)) / pstd (col [[1,5],[3,5]] c))
      ∧ (2 ≤ ([[1,5],[3,5]] : Mat).length →
          mean (col (zscore [[1,5],[3,5]]) c) = 0 ∧
          pstd (col (zscore [[1,5],[3,5]]) c) = 1))
  ∧ (∀ c, c < 2 → pstd (col [[1,5],[3,5]] c) = 0 →
      ∀ i, i < ([[1,5],[3,5]] : Mat).length →
        entry (zscore [[1,5],[3,5]]) i c = 0)) :=
  claim_C3_zscore [[1,5],[3,5]] 2 (by decide)

/-! ### Claim C4: normalize -/

/-- C4: for every rectangular real matrix `X` and `axis ∈ {0, 1}`,
`normalize` returns a same-shape matrix; every slice along the axis
(column for axis 0, row for axis 1) with nonzero L2 norm is divided by its
L2 norm, making its output norm exactly 1 in exact arithmetic; every slice
with L2 norm exactly zero comes out all zeros; the embedding is total, so
no exception is raised on degenerate input. -/
theorem claim_C4_normalize (X : Mat) (J : ℕ) (hrect : ∀ r ∈ X, r.length = J) :
    (∀ axis, (normalize X axis).length = X.length ∧
      ∀ i, i < X.length → ((normalize X axis).getD i []).length = (X.getD i []).length)
  ∧ (∀ c, c < J → l2norm (col X c) ≠ 0 →
      col (normalize X 0) c = (col X c).map (fun x => x / l2norm (col X c))
      ∧ l2norm (col (normalize X 0) c) = 1)
  ∧ (∀ c, c < J → l2norm (col X c) = 0 →
      ∀ i, i < X.length → entry (normalize X 0) i c = 0)
  ∧ (∀ i, i < X.length → l2norm (X.getD i []) ≠ 0 →
      (normalize X 1).getD i [] = (X.getD i []).map (fun x => x / l2norm (X.getD i []))
      ∧ l2norm ((normalize X 1).getD i []) = 1)
  ∧ (∀ i, i < X.length → l2norm (X.getD i []) = 0 →
      ∀ c, c < J → entry (normalize X 1) i c = 0) := by
  refine ⟨fun axis => ⟨length_normalize X axis, fun i hi => normalize_row_length X axis hi⟩,
    ?_, ?_, ?_, ?_⟩
  · intro c hc hs
    have hcol := col_normalize0_of_ne hrect hc hs
    exact ⟨hcol, by rw [hcol]; exact l2norm_map_div hs⟩
  · intro c hc hs i hi
    rw [normalize_entry X 0 hi (by rw [row_length_of_rect hrect hi]; exact hc)]
    simp only [eq_self_iff_true, if_true]
    rw [if_pos hs]
    have hx : entry X i c = 0 := by
      have hmem : (col X c).getD i 0 ∈ col X c := getD_mem_of_lt 0 (by
        rwa [length_col])
      have := (l2norm_eq_zero_iff (col X c)).mp hs _ hmem
      rwa [col_getD X c hi] at this
    by_cases h2 : i = 0
    · rw [if_pos h2]
    · rw [if_neg h2, hx]
  · intro i hi hs
    have hrow := normalize1_row_of_ne hi hs
    exact ⟨hrow, by rw [hrow]; exact l2norm_map_div hs⟩
  · intro i hi hs c hc
    rw [normalize_entry X 1 hi (by rw [row_length_of_rect hrect hi]; exact hc)]
    simp only [if_neg (one_ne_zero (α := ℕ))]
    rw [if_pos hs]
    have hx : entry X i c = 0 := by
      apply (l2norm_eq_zero_iff (X.getD i [])).mp hs
      exact getD_mem_of_lt 0 (by rw [row_length_of_rect hrect hi]; exact hc)
    by_cases h2 : c = 0
    · rw [if_pos h2]
    · rw [if_neg h2, hx]

/-- C4 witness: the concrete matrix `[[3,0],[4,0]]` (column 0 has norm 5,
column 1 has norm 0; row 0 has norm 3, row 1 has norm 4). -/
theorem claim_C4_normalize_witness :
    ((∀ axis, (normalize [[3,0],[4,0]] axis).length = ([[3,0],[4,0]] : Mat).length ∧
      ∀ i, i < ([[3,0],[4,0]] : Mat).length →
        ((normalize [[3,0],[4,0]] axis).getD i []).length =
          (([[3,0],[4,0]] : Mat).getD i []).length)
  ∧ (∀ c, c < 2 → l2norm (col [[3,0],[4,0]] c) ≠ 0 →
      col (normalize [[3,0],[4,0]] 0) c = (col [[3,0],[4,0]] c).map
        (fun x => x / l2norm (col [[3,0],[4,0]] c))
      ∧ l2norm (col (normalize [[3,0],[4,0]] 0) c) = 1)
  ∧ (∀ c, c < 2 → l2norm (col [[3,0],[4,0]] c) = 0 →
      ∀ i, i < ([[3,0],[4,0]] : Mat).length →
        entry (normalize [[3,0],[4,0]] 0) i c = 0)
  ∧ (∀ i, i < ([[3,0],[4,0]] : Mat).length →
      l2norm (([[3,0],[4,0]] : Mat).getD i []) ≠ 0 →
      (normalize [[3,0],[4,0]] 1).getD i [] = (([[3,0],[4,0]] : Mat).getD i []).map
        (fun x => x / l2norm (([[3,0],[4,0]] : Mat).getD i []))
      ∧ l2norm ((normalize [[3,0],[4,0]] 1).getD i []) = 1)
  ∧ (∀ i, i < ([[3,0],[4,0]] : Mat).length →
      l2norm (([[3,0],[4,0]] : Mat).getD i []) = 0 →
      ∀ c, c < 2 → entry (normalize [[3,0],[4,0]] 1) i c = 0)) :=
  claim_C4_normalize [[3,0],[4,0]] 2 (by decide)

/-! ### Claim C8: get_seed -/

/-- C8: `get_seed` resolves its argument by type and never raises: an
integer produces a freshly constructed generator seeded with it, an
existing `RandomState` instance is returned as that exact instance
(identity token preserved), and `None` or a value of any other type falls
through to the shared global `np.random` generator. -/
theorem claim_C8_get_seed :
    (∀ n : ℤ, get_seed (PyVal.int n) = RNG.newState n)
  ∧ (∀ i : ℕ, get_seed (PyVal.randomState i) = RNG.instanceRef i)
  ∧ get_seed PyVal.none = RNG.npRandom
  ∧ (∀ i : ℕ, get_seed (PyVal.other i) = RNG.npRandom) :=
  ⟨fun _ => rfl, fun _ => rfl, rfl, fun _ => rfl⟩

/-! ### Shape and entry lemmas for the cross-covariance -/

theorem headD_eq_getD_zero {α : Type} (l : List α) (d : α) : l.headD d = l.getD 0 d := by
  cases l <;> rfl

theorem length_norm_z (X : Mat) : (normalize (zscore X) 0).length = X.length := by
  rw [length_normalize, length_zscore]

theorem norm_z_row_length {X : Mat} {i : ℕ} (hi : i < X.length) :
    ((normalize (zscore X) 0).getD i []).length = (X.getD i []).length := by
  rw [normalize_row_length _ _ (by rwa [length_zscore]), zscore_row_length _ hi]

theorem width_norm_z {X : Mat} (h0 : 0 < X.length) :
    width (normalize (zscore X) 0) = (X.getD 0 []).length := by
  unfold width
  rw [headD_eq_getD_zero]
  exact norm_z_row_length h0

theorem length_matTmul (A B : Mat) : (matTmul A B).length = width A := by
  simp [matTmul]

theorem matTmul_row (A B : Mat) {a : ℕ} (ha : a < width A) :
    (matTmul A B).getD a [] = (List.range (width B)).map (fun b =>
      ((A.zip B).map (fun p => p.1.getD a 0 * p.2.getD b 0)).sum) := by
  unfold matTmul
  rw [getD_rangeMap _ _ ha]

theorem matTmul_entry {A B : Mat} {a b : ℕ} (ha : a < width A) (hb : b < width B)
    (hAB : A.length = B.length) :
    entry (matTmul A B) a b =
      ∑ i in Finset.range A.length, entry A i a * entry B i b := by
  unfold entry
  rw [matTmul_row A B ha, getD_rangeMap _ _ hb]
  rw [sum_zip_map _ [] [] A B hAB]

theorem length_xprod (Xnz Ynz : Mat) : (xprod Xnz Ynz).length = width Ynz := by
  simp [xprod, matTmul]

theorem xprod_rows {Xnz Ynz : Mat} {r : List ℝ} (h : r ∈ xprod Xnz Ynz) :
    r.length = width Xnz := by
  unfold xprod at h
  rcases List.mem_map.mp h with ⟨row, hrow, rfl⟩
  unfold matTmul at hrow
  rcases List.mem_map.mp hrow with ⟨a, _, rfl⟩
  simp

theorem xprod_entry {Xnz Ynz : Mat} {a b : ℕ} (ha : a < width Ynz) (hb : b < width Xnz)
    (hAB : Ynz.length = Xnz.length) :
    entry (xprod Xnz Ynz) a b =
      (∑ i in Finset.range Ynz.length, entry Ynz i a * entry Xnz i b) /
        ((Xnz.length : ℝ) - 1) := by
  have hmt := matTmul_entry ha hb hAB
  unfold entry at hmt ⊢
  unfold xprod
  rw [getD_map _ [] [] (by rw [length_matTmul]; exact ha)]
  rw [getD_map _ 0 0 (by rw [matTmul_row Ynz Xnz ha]; simpa using hb)]
  rw [hmt]

/-! ### Claim C2: _compute_xcorr -/

/-- C2: for every rectangular `N×J` matrix `X` with `N ≥ 2` and `N×K`
matrix `Y` (same `N`), `_compute_xcorr X Y` succeeds (the `Ynz.T @ Xnz`
inner-dimension check passes) and equals
`normalize(zscore(Y)).T @ normalize(zscore(X))` divided entrywise by
`N - 1`, with result shape `K×J`. -/
theorem claim_C2_compute_xcorr (X Y : Mat) (J K N : ℕ)
    (hX : ∀ r ∈ X, r.length = J) (hY : ∀ r ∈ Y, r.length = K)
    (hNX : X.length = N) (hNY : Y.length = N) (hN : 2 ≤ N) :
    _compute_xcorrE X Y = Except.ok (_compute_xcorr X Y)
  ∧ (_compute_xcorr X Y).length = K
  ∧ (∀ r ∈ _compute_xcorr X Y, r.length = J)
  ∧ (∀ a, a < K → ∀ b, b < J →
      entry (_compute_xcorr X Y) a b =
        (∑ i in Finset.range N,
          entry (normalize (zscore Y) 0) i a * entry (normalize (zscore X) 0) i b) /
        ((N : ℝ) - 1)) := by
  have h0X : 0 < X.length := by omega
  have h0Y : 0 < Y.length := by omega
  have hwX : width (normalize (zscore X) 0) = J := by
    rw [width_norm_z h0X]
    exact row_length_of_rect hX h0X
  have hwY : width (normalize (zscore Y) 0) = K := by
    rw [width_norm_z h0Y]
    exact row_length_of_rect hY h0Y
  have hlX : (normalize (zscore X) 0).length = N := by rw [length_norm_z]; exact hNX
  have hlY : (normalize (zscore Y) 0).length = N := by rw [length_norm_z]; exact hNY
  refine ⟨?_, ?_, ?_, ?_⟩
  · unfold _compute_xcorrE
    rw [if_pos (by rw [hlX, hlY])]
  · unfold _compute_xcorr
    rw [length_xprod, hwY]
  · intro r hr
    have := xprod_rows hr
    rwa [hwX] at this
  · intro a ha b hb
    unfold _compute_xcorr
    rw [xprod_entry (by rwa [hwY]) (by rwa [hwX]) (by rw [hlX, hlY]), hlX, hlY]

/-- C2 witness: `X = [[1],[2]]`, `Y = [[2],[1]]` (both 2×1). -/
theorem claim_C2_compute_xcorr_witness :
    (_compute_xcorrE [[1],[2]] [[2],[1]] = Except.ok (_compute_xcorr [[1],[2]] [[2],[1]])
  ∧ (_compute_xcorr [[1],[2]] [[2],[1]]).length = 1
  ∧ (∀ r ∈ _compute_xcorr [[1],[2]] [[2],[1]], r.length = 1)
  ∧ (∀ a, a < 1 → ∀ b, b < 1 →
      entry (_compute_xcorr [[1],[2]] [[2],[1]]) a b =
        (∑ i in Finset.range 2,
          entry (normalize (zscore [[2],[1]]) 0) i a *
            entry (normalize (zscore [[1],[2]]) 0) i b) /
        ((2 : ℝ) - 1))) :=
  claim_C2_compute_xcorr [[1],[2]] [[2],[1]] 1 1 2 (by decide) (by decide) rfl rfl
    (by norm_num)

/-! ### np.unique, row selection and stacking lemmas -/

theorem np_unique_sorted_le (g : List ℤ) : (np_unique g).Sorted (· ≤ ·) :=
  List.sorted_insertionSort _ _

theorem np_unique_nodup (g : List ℤ) : (np_unique g).Nodup :=
  ((List.perm_insertionSort _ _).nodup_iff).mpr (List.nodup_dedup g)

theorem np_unique_sorted (g : List ℤ) : (np_unique g).Sorted (· < ·) :=
  (np_unique_sorted_le g).lt_of_le (np_unique_nodup g)

theorem mem_np_unique {g : List ℤ} {x : ℤ} : x ∈ np_unique g ↔ x ∈ g := by
  unfold np_unique
  rw [List.mem_insertionSort, List.mem_dedup]

theorem np_unique_eq_nil_iff (g : List ℤ) : np_unique g = [] ↔ g = [] := by
  unfold np_unique
  constructor
  · intro h
    have := (List.perm_insertionSort (· ≤ ·) g.dedup).symm.trans (by rw [h])
    have hd : g.dedup = [] := List.eq_nil_of_length_eq_zero (by
      simpa using this.length_eq)
    exact (List.dedup_eq_nil g).mp hd
  · intro h
    subst h
    rfl

theorem maskRows_length {g : List ℤ} {X : Mat} (h : g.length = X.length) (grp : ℤ) :
    (maskRows X g grp).length = g.count grp := by
  induction g generalizing X with
  | nil => simp [maskRows]
  | cons l gs ih =>
    match X with
    | [] => simp at h
    | r :: Xs =>
      have h' : gs.length = Xs.length := by simpa using h
      unfold maskRows at ih ⊢
      rw [List.zip_cons_cons, List.filter_cons]
      by_cases hl : l = grp
      · simp only [hl, beq_self_eq_true, if_pos]
        rw [List.map_cons, List.length_cons, ih h', List.count_cons]
        simp
      · have hbeq : (l == grp) = false := beq_eq_false_iff_ne.mpr hl
        simp only [hbeq]
        rw [if_neg (by simp), ih h', List.count_cons]
        simp [hl]

theorem maskRows_mem {g : List ℤ} {X : Mat} {grp : ℤ} {r : List ℝ}
    (h : r ∈ maskRows X g grp) : r ∈ X := by
  unfold maskRows at h
  rcases List.mem_map.mp h with ⟨p, hp, rfl⟩
  exact (List.of_mem_zip (List.mem_of_mem_filter hp)).2

theorem maskRows_eq_groupRowsSpec {g : List ℤ} {X : Mat} (h : g.length = X.length)
    (grp : ℤ) : maskRows X g grp = groupRowsSpec X g grp := by
  induction g generalizing X with
  | nil => simp [maskRows, groupRowsSpec]
  | cons l gs ih =>
    match X with
    | [] => simp at h
    | r :: Xs =>
      have h' : gs.length = Xs.length := by simpa using h
      unfold maskRows groupRowsSpec at ih ⊢
      rw [List.zip_cons_cons, List.filter_cons, List.length_cons,
        List.range_succ_eq_map, List.filterMap_cons, List.filterMap_map]
      have hcomp : ((fun i => if (l :: gs).getD i 0 = grp then
          Option.some ((r :: Xs).getD i []) else Option.none) ∘ Nat.succ) =
          (fun i => if gs.getD i 0 = grp then Option.some (Xs.getD i [])
            else Option.none) := by
        funext i
        simp [Function.comp_def]
      rw [hcomp]
      by_cases hl : l = grp
      · simp only [List.getD_cons_zero, hl, beq_self_eq_true, if_pos]
        rw [List.map_cons]
        rw [ih h']
      · have hbeq : (l == grp) = false := beq_eq_false_iff_ne.mpr hl
        simp only [List.getD_cons_zero, hbeq]
        rw [if_neg (by simp), if_neg hl, ih h']

theorem mapE_ok {α β : Type} (f : α → Except String β) (gfn : α → β) :
    ∀ l : List α, (∀ a ∈ l, f a = Except.ok (gfn a)) →
      mapE f l = Except.ok (l.map gfn) := by
  intro l
  induction l with
  | nil => intro _; rfl
  | cons a as ih =>
    intro h
    have ha := h a (by simp)
    have has := ih (fun x hx => h x (by simp [hx]))
    show Except.bind (f a) _ = _
    rw [ha]
    show Except.bind (mapE f as) _ = _
    rw [has]
    rfl

theorem mapE_cons_error {α β : Type} (f : α → Except String β) (a : α) (l : List α)
    {e : String} (h : f a = Except.error e) : mapE f (a :: l) = Except.error e := by
  show Except.bind (f a) _ = _
  rw [h]
  rfl

theorem row_stackE_ok {ms : List Mat} {w : ℕ} (hne : ms ≠ [])
    (hw : ∀ m ∈ ms, width m = w) : row_stackE ms = Except.ok ms.flatten := by
  match ms with
  | [] => exact absurd rfl hne
  | m :: rest =>
    have hall : (rest.all (fun m2 => width m2 = width m)) = true := by
      rw [List.all_eq_true]
      intro m2 hm2
      have h1 : width m2 = w := hw m2 (by simp [hm2])
      have h2 : width m = w := hw m (by simp)
      simp [h1, h2]
    simp [row_stackE, hall]

/-! ### Shape of a `_compute_xcorr` block -/

theorem length_compute_xcorr {Y : Mat} (X : Mat) {K : ℕ}
    (hY : ∀ r ∈ Y, r.length = K) (hYne : 0 < Y.length) :
    (_compute_xcorr X Y).length = K := by
  unfold _compute_xcorr
  rw [length_xprod, width_norm_z hYne]
  exact row_length_of_rect hY hYne

theorem rows_compute_xcorr {X : Mat} (Y : Mat) {J : ℕ}
    (hX : ∀ r ∈ X, r.length = J) (hXne : 0 < X.length)
    {r : List ℝ} (hr : r ∈ _compute_xcorr X Y) : r.length = J := by
  unfold _compute_xcorr at hr
  rw [xprod_rows hr, width_norm_z hXne]
  exact row_length_of_rect hX hXne

theorem width_compute_xcorr {X Y : Mat} {J K : ℕ}
    (hX : ∀ r ∈ X, r.length = J) (hY : ∀ r ∈ Y, r.length = K)
    (hXne : 0 < X.length) (hYne : 0 < Y.length) :
    width (_compute_xcorr X Y) = if K = 0 then 0 else J := by
  by_cases hK : K = 0
  · rw [if_pos hK]
    have h0 : (_compute_xcorr X Y).length = 0 := by
      rw [length_compute_xcorr X hY hYne, hK]
    rw [List.eq_nil_of_length_eq_zero h0]
    rfl
  · rw [if_neg hK]
    have hlen : 0 < (_compute_xcorr X Y).length := by
      rw [length_compute_xcorr X hY hYne]
      omega
    unfold width
    rw [headD_eq_getD_zero]
    exact rows_compute_xcorr Y hX hXne (getD_mem_of_lt [] hlen)

/-! ### Success of grouped xcorr -/

theorem groupBlockE_ok {X Y : Mat} {g : List ℤ} (hgX : g.length = X.length)
    (hgY : g.length = Y.length) (grp : ℤ) :
    groupBlockE X Y g grp =
      Except.ok (_compute_xcorr (maskRows X g grp) (maskRows Y g grp)) := by
  unfold groupBlockE
  rw [if_pos hgX, if_pos hgY]
  unfold _compute_xcorrE
  rw [if_pos]
  rw [length_norm_z, length_norm_z, maskRows_length hgY grp, maskRows_length hgX grp]

theorem xcorrE_some_ok {X Y : Mat} {g : List ℤ} {J K : ℕ}
    (hX : ∀ r ∈ X, r.length = J) (hY : ∀ r ∈ Y, r.length = K)
    (hgX : g.length = X.length) (hgY : g.length = Y.length) (hg : g ≠ []) :
    xcorrE X Y (Option.some g) = Except.ok
      (((np_unique g).map (fun grp =>
        _compute_xcorr (maskRows X g grp) (maskRows Y g grp))).flatten) := by
  have hmask : ∀ grp : ℤ, grp ∈ np_unique g →
      (0 < (maskRows X g grp).length ∧ 0 < (maskRows Y g grp).length) := by
    intro grp hgrp
    have hcnt : 0 < g.count grp := List.count_pos_iff.mpr (mem_np_unique.mp hgrp)
    rw [maskRows_length hgX grp, maskRows_length hgY grp]
    exact ⟨hcnt, hcnt⟩
  have hblocks := mapE_ok (groupBlockE X Y g)
    (fun grp => _compute_xcorr (maskRows X g grp) (maskRows Y g grp)) (np_unique g)
    (fun grp _ => groupBlockE_ok hgX hgY grp)
  show Except.bind (mapE (groupBlockE X Y g) (np_unique g)) row_stackE = _
  rw [hblocks]
  show row_stackE _ = _
  apply row_stackE_ok
  · intro hnil
    rw [List.map_eq_nil_iff] at hnil
    exact hg ((np_unique_eq_nil_iff g).mp hnil)
  · intro m hm
    rcases List.mem_map.mp hm with ⟨grp, hgrp, rfl⟩
    have hXg : ∀ r ∈ maskRows X g grp, r.length = J :=
      fun r hr => hX r (maskRows_mem hr)
    have hYg : ∀ r ∈ maskRows Y g grp, r.length = K :=
      fun r hr => hY r (maskRows_mem hr)
    exact width_compute_xcorr hXg hYg (hmask grp hgrp).1 (hmask grp hgrp).2

theorem sum_map_const {α : Type} (l : List α) (k : ℕ) :
    (l.map (fun _ => k)).sum = l.length * k := by
  induction l with
  | nil => simp
  | cons a as ih =>
    simp only [List.map_cons, List.sum_cons, List.length_cons, ih]
    ring

theorem xcorrE_some_err {X Y : Mat} {g : List ℤ} (hg : g ≠ [])
    (hmm : ¬(g.length = X.length ∧ g.length = Y.length)) :
    xcorrE X Y (Option.some g) =
      Except.error "boolean index did not match indexed array" := by
  obtain ⟨u, us, hu⟩ :=
    List.exists_cons_of_ne_nil (fun h => hg ((np_unique_eq_nil_iff g).mp h))
  have herr : groupBlockE X Y g u =
      Except.error "boolean index did not match indexed array" := by
    unfold groupBlockE
    by_cases h1 : g.length = X.length
    · rw [if_pos h1, if_neg (fun h2 => hmm ⟨h1, h2⟩)]
    · rw [if_neg h1]
  show Except.bind (mapE (groupBlockE X Y g) (np_unique g)) row_stackE = _
  rw [hu, mapE_cons_error _ _ _ herr]
  rfl

/-! ### Claim C1: error behavior of grouped xcorr -/

/-- C1 counterexample: `X`, `Y` and `grouping` all have 3 rows and the
group with label 1 has exactly one row (`N = 1 ≤ 1`), so the claim
requires a failure; the code instead returns normally (`Except.ok` here;
in floating point the one-row block is `0/0`, i.e. NaN entries with a
`RuntimeWarning`, not an exception). -/
theorem claim_C1_counterexample :
    (xcorrE [[1],[2],[3]] [[4],[5],[6]] (Option.some [0,0,1])).isOk = true := by
  have hX : ∀ r ∈ ([[1],[2],[3]] : Mat), r.length = 1 := by decide
  have hY : ∀ r ∈ ([[4],[5],[6]] : Mat), r.length = 1 := by decide
  have hgX : ([0,0,1] : List ℤ).length = ([[1],[2],[3]] : Mat).length := rfl
  have hgY : ([0,0,1] : List ℤ).length = ([[4],[5],[6]] : Mat).length := rfl
  have hg : ([0,0,1] : List ℤ) ≠ [] := by decide
  rw [xcorrE_some_ok hX hY hgX hgY hg]
  rfl

/-- C1 (amended): `xcorr(X, Y, grouping)` with a grouping raises a shape
error precisely when the row counts of `X`, `Y` and `grouping` are not all
equal or the grouping is empty (`np.row_stack` of an empty block list);
an undersized group (one row) does NOT make the call fail — its block is
divided by `N - 1 = 0`, which warns and produces NaN entries but still
returns a stacked matrix. -/
theorem claim_C1_xcorr_shape_errors (X Y : Mat) (g : List ℤ) (J K : ℕ)
    (hX : ∀ r ∈ X, r.length = J) (hY : ∀ r ∈ Y, r.length = K) :
    (xcorrE X Y (Option.some g)).isOk = true ↔
      (g ≠ [] ∧ g.length = X.length ∧ g.length = Y.length) := by
  constructor
  · intro h
    by_cases hg : g = []
    · subst hg
      rw [show xcorrE X Y (Option.some ([] : List ℤ)) =
        Except.error "need at least one array to concatenate" from rfl] at h
      exact Bool.noConfusion h
    · by_cases hmm : g.length = X.length ∧ g.length = Y.length
      · exact ⟨hg, hmm⟩
      · rw [xcorrE_some_err hg hmm] at h
        exact Bool.noConfusion h
  · rintro ⟨hg, h1, h2⟩
    rw [xcorrE_some_ok hX hY h1 h2 hg]
    rfl

/-- C1 witness: a 2-label grouping against 1-row matrices (row-count
mismatch, hence an error), instantiating the amended equivalence. -/
theorem claim_C1_xcorr_shape_errors_witness :
    ((xcorrE [[1]] [[1]] (Option.some [0,1])).isOk = true ↔
      (([0,1] : List ℤ) ≠ [] ∧
       ([0,1] : List ℤ).length = ([[1]] : Mat).length ∧
       ([0,1] : List ℤ).length = ([[1]] : Mat).length)) :=
  claim_C1_xcorr_shape_errors [[1]] [[1]] [0,1] 1 1 (by decide) (by decide)

/-! ### Claim C5: grouped xcorr equals the stacked per-group blocks -/

/-- C5 counterexample: at the degenerate input `g = []` (so `N = 0`,
`G = 0`, and every group vacuously has at least 2 rows) the claim
predicts the empty vertical stack; the code instead raises the
`np.row_stack([])` ValueError. -/
theorem claim_C5_counterexample :
    xcorrE [] [] (Option.some ([] : List ℤ)) =
      Except.error "need at least one array to concatenate" := rfl

/-- C5 (amended, restricted to nonempty groupings): for rectangular
`X : N×J` and `Y : N×K` and a nonempty length-`N` grouping all of whose
groups have at least 2 rows, `xcorr(X, Y, grouping)` returns the vertical
stack, in ascending order of the unique labels (`np_unique g` is sorted
`<` and carries exactly the labels of `g`), of `_compute_xcorr` applied to
exactly the rows of each group (the boolean-mask selection agrees with the
index-set selection `groupRowsSpec`, so no rows of other groups
contribute); the stack has shape `(K·G)×J`; and `xcorr(X, Y, None)` is
exactly `_compute_xcorr(X, Y)`. -/
theorem claim_C5_xcorr_grouping (X Y : Mat) (g : List ℤ) (J K : ℕ)
    (hX : ∀ r ∈ X, r.length = J) (hY : ∀ r ∈ Y, r.length = K)
    (hgX : g.length = X.length) (hgY : g.length = Y.length) (hg : g ≠ [])
    (hcnt : ∀ grp ∈ np_unique g, 2 ≤ g.count grp) :
    xcorrE X Y (Option.some g) = Except.ok
      (((np_unique g).map (fun grp =>
        _compute_xcorr (maskRows X g grp) (maskRows Y g grp))).flatten)
  ∧ (np_unique g).Sorted (· < ·)
  ∧ (∀ x : ℤ, x ∈ np_unique g ↔ x ∈ g)
  ∧ (∀ grp : ℤ, maskRows X g grp = groupRowsSpec X g grp ∧
      maskRows Y g grp = groupRowsSpec Y g grp)
  ∧ (((np_unique g).map (fun grp =>
        _compute_xcorr (maskRows X g grp) (maskRows Y g grp))).flatten).length =
      K * (np_unique g).length
  ∧ (∀ r ∈ ((np_unique g).map (fun grp =>
        _compute_xcorr (maskRows X g grp) (maskRows Y g grp))).flatten, r.length = J)
  ∧ xcorrE X Y Option.none = _compute_xcorrE X Y := by
  have hmaskY : ∀ grp ∈ np_unique g, 0 < (maskRows Y g grp).length := by
    intro grp hgrp
    rw [maskRows_length hgY grp]
    have := hcnt grp hgrp
    omega
  have hmaskX : ∀ grp ∈ np_unique g, 0 < (maskRows X g grp).length := by
    intro grp hgrp
    rw [maskRows_length hgX grp]
    have := hcnt grp hgrp
    omega
  refine ⟨xcorrE_some_ok hX hY hgX hgY hg, np_unique_sorted g,
    fun x => mem_np_unique,
    fun grp => ⟨maskRows_eq_groupRowsSpec hgX grp, maskRows_eq_groupRowsSpec hgY grp⟩,
    ?_, ?_, rfl⟩
  · rw [List.length_flatten, List.map_map]
    have hKconst : (np_unique g).map (List.length ∘ fun grp =>
        _compute_xcorr (maskRows X g grp) (maskRows Y g grp)) =
        (np_unique g).map (fun _ => K) := by
      apply List.map_congr_left
      intro grp hgrp
      show (_compute_xcorr (maskRows X g grp) (maskRows Y g grp)).length = K
      exact length_compute_xcorr _ (fun r hr => hY r (maskRows_mem hr))
        (hmaskY grp hgrp)
    rw [hKconst, sum_map_const, Nat.mul_comm]
  · intro r hr
    rcases List.mem_flatten.mp hr with ⟨blk, hblk, hrblk⟩
    rcases List.mem_map.mp hblk with ⟨grp, hgrp, rfl⟩
    exact rows_compute_xcorr _ (fun r2 hr2 => hX r2 (maskRows_mem hr2))
      (hmaskX grp hgrp) hrblk

/-- C5 witness: `X = [[1],[2],[3],[4]]`, `Y = [[5],[6],[7],[8]]`,
`g = [1,1,0,0]` — two groups of two rows each. -/
theorem claim_C5_xcorr_grouping_witness :
    (xcorrE [[1],[2],[3],[4]] [[5],[6],[7],[8]] (Option.some [1,1,0,0]) = Except.ok
      (((np_unique [1,1,0,0]).map (fun grp =>
        _compute_xcorr (maskRows [[1],[2],[3],[4]] [1,1,0,0] grp)
          (maskRows [[5],[6],[7],[8]] [1,1,0,0] grp))).flatten)
  ∧ (np_unique [1,1,0,0]).Sorted (· < ·)
  ∧ (∀ x : ℤ, x ∈ np_unique [1,1,0,0] ↔ x ∈ ([1,1,0,0] : List ℤ))
  ∧ (∀ grp : ℤ, maskRows [[1],[2],[3],[4]] [1,1,0,0] grp =
        groupRowsSpec [[1],[2],[3],[4]] [1,1,0,0] grp ∧
      maskRows [[5],[6],[7],[8]] [1,1,0,0] grp =
        groupRowsSpec [[5],[6],[7],[8]] [1,1,0,0] grp)
  ∧ (((np_unique [1,1,0,0]).map (fun grp =>
        _compute_xcorr (maskRows [[1],[2],[3],[4]] [1,1,0,0] grp)
          (maskRows [[5],[6],[7],[8]] [1,1,0,0] grp))).flatten).length =
      1 * (np_unique [1,1,0,0]).length
  ∧ (∀ r ∈ ((np_unique [1,1,0,0]).map (fun grp =>
        _compute_xcorr (maskRows [[1],[2],[3],[4]] [1,1,0,0] grp)
          (maskRows [[5],[6],[7],[8]] [1,1,0,0] grp))).flatten, r.length = 1)
  ∧ xcorrE [[1],[2],[3],[4]] [[5],[6],[7],[8]] Option.none =
      _compute_xcorrE [[1],[2],[3],[4]] [[5],[6],[7],[8]]) :=
  claim_C5_xcorr_grouping [[1],[2],[3],[4]] [[5],[6],[7],[8]] [1,1,0,0] 1 1
    (by decide) (by decide) rfl rfl (by decide) (by decide)

/-! ### Columnwise-sum (np.row_stack(...).sum(0)) lemmas -/

theorem foldl_zipWith_length : ∀ (L : List (List ℝ)) (v : List ℝ),
    (∀ u ∈ L, u.length = v.length) →
    (L.foldl (fun a b => a.zipWith (fun x y => x + y) b) v).length = v.length := by
  intro L
  induction L with
  | nil => intro v _; rfl
  | cons u L2 ih =>
    intro v h
    have hu : u.length = v.length := h u (by simp)
    have hz : (v.zipWith (fun x y => x + y) u).length = v.length := by
      rw [List.length_zipWith, hu, Nat.min_self]
    rw [List.foldl_cons, ih _ (by intro u2 hu2; rw [hz]; exact h u2 (by simp [hu2])), hz]

theorem foldl_zipWith_getD : ∀ (L : List (List ℝ)) (v : List ℝ),
    (∀ u ∈ L, u.length = v.length) → ∀ i, i < v.length →
    (L.foldl (fun a b => a.zipWith (fun x y => x + y) b) v).getD i 0 =
      v.getD i 0 + (L.map (fun u => u.getD i 0)).sum := by
  intro L
  induction L with
  | nil => intro v _ i _; simp
  | cons u L2 ih =>
    intro v h i hi
    have hu : u.length = v.length := h u (by simp)
    have hz : (v.zipWith (fun x y => x + y) u).length = v.length := by
      rw [List.length_zipWith, hu, Nat.min_self]
    rw [List.foldl_cons,
      ih _ (by intro u2 hu2; rw [hz]; exact h u2 (by simp [hu2])) i (by rw [hz]; exact hi)]
    have hzi : (v.zipWith (fun x y => x + y) u).getD i 0 = v.getD i 0 + u.getD i 0 := by
      rw [List.getD_eq_getElem _ _ (by rw [hz]; exact hi), List.getElem_zipWith,
        List.getD_eq_getElem _ _ hi, List.getD_eq_getElem _ _ (by rw [hu]; exact hi)]
    rw [hzi, List.map_cons, List.sum_cons]
    ring

/-! ### reverse_dummy_code lemmas -/

theorem length_rdc_scaled (Y : Mat) : (rdc_scaled Y).length = width Y := by
  simp [rdc_scaled]

theorem rdc_scaled_rows {Y : Mat} {u : List ℝ} (h : u ∈ rdc_scaled Y) :
    u.length = Y.length := by
  unfold rdc_scaled at h
  rcases List.mem_map.mp h with ⟨c, _, rfl⟩
  rw [List.length_map, length_col]

theorem reverse_dummy_code_ok {Y : Mat} (h : rdc_scaled Y ≠ []) :
    reverse_dummy_code Y = Except.ok (rdc_core Y) := by
  obtain ⟨r, rs, hsc⟩ := List.exists_cons_of_ne_nil h
  unfold reverse_dummy_code rdc_core
  rw [hsc]

theorem rdc_core_spec {Y : Mat} {G : ℕ} (hrect : ∀ r ∈ Y, r.length = G)
    (hG : 0 < G) (hN : 0 < Y.length) :
    (rdc_core Y).length = Y.length ∧
    ∀ i, i < Y.length → (rdc_core Y).getD i 0 =
      ∑ c in Finset.range G, ((c : ℝ) + 1) * entry Y i c := by
  have hwidth : width Y = G := by rw [width, headD_eq_getD_zero]; exact row_length_of_rect hrect hN
  have hne : rdc_scaled Y ≠ [] := by
    intro hnil
    have := length_rdc_scaled Y
    rw [hnil, hwidth] at this
    simp at this
    omega
  obtain ⟨r, rs, hsc⟩ := List.exists_cons_of_ne_nil hne
  have hcore : rdc_core Y = rs.foldl (fun a b => a.zipWith (fun u v => u + v) b) r := by
    unfold rdc_core
    rw [hsc]
  have hrmem : r ∈ rdc_scaled Y := by rw [hsc]; simp
  have hrlen : r.length = Y.length := rdc_scaled_rows hrmem
  have hrs : ∀ u ∈ rs, u.length = r.length := by
    intro u hu
    rw [hrlen]
    exact rdc_scaled_rows (by rw [hsc]; simp [hu])
  constructor
  · rw [hcore, foldl_zipWith_length rs r hrs, hrlen]
  · intro i hi
    have hi' : i < r.length := by rwa [hrlen]
    rw [hcore, foldl_zipWith_getD rs r hrs i hi']
    have hall : r.getD i 0 + (rs.map (fun u => u.getD i 0)).sum =
        ((rdc_scaled Y).map (fun u => u.getD i 0)).sum := by
      rw [hsc, List.map_cons, List.sum_cons]
    rw [hall]
    unfold rdc_scaled
    rw [List.map_map]
    have hfun : ∀ c ∈ List.range (width Y),
        ((fun u => u.getD i 0) ∘ fun c => (col Y c).map (fun v => v * ((c : ℝ) + 1))) c =
        ((c : ℝ) + 1) * entry Y i c := by
      intro c _
      show ((col Y c).map (fun v => v * ((c : ℝ) + 1))).getD i 0 = _
      rw [getD_map _ 0 0 (by rw [length_col]; exact hi), col_getD Y c hi]
      ring
    rw [List.map_congr_left hfun, hwidth, sum_rangeMap]

/-! ### Claim C9: reverse_dummy_code arithmetic -/

/-- C9 counterexample: for a matrix with `N = 2` rows and `G = 0` columns
the claim predicts the zero vector of length 2 (empty sums); the code
instead raises the `np.row_stack([])` ValueError, because `Y.T` has no
rows to enumerate. -/
theorem claim_C9_counterexample :
    reverse_dummy_code [([] : List ℝ), []] =
      Except.error "need at least one array to concatenate" := rfl

/-- C9 (amended, restricted to `N ≥ 1`, `G ≥ 1`): for every rectangular
`N×G` numeric matrix `Y` — one-hot or not — `reverse_dummy_code Y`
returns the length-`N` vector whose `i`-th entry is
`∑ c in range G, (c+1) * Y[i,c]`, i.e. `Y` applied to the column vector
`(1, …, G)`; for `G = 0` the call raises instead (see the
counterexample), and `N = 0` with `G ≥ 1` is not representable in the
list-of-rows embedding. -/
theorem claim_C9_reverse_dummy_code (Y : Mat) (G : ℕ)
    (hrect : ∀ r ∈ Y, r.length = G) (hG : 0 < G) (hN : 0 < Y.length) :
    ∃ v, reverse_dummy_code Y = Except.ok v ∧ v.length = Y.length ∧
      ∀ i, i < Y.length → v.getD i 0 =
        ∑ c in Finset.range G, ((c : ℝ) + 1) * entry Y i c := by
  have hwidth : width Y = G := by rw [width, headD_eq_getD_zero]; exact row_length_of_rect hrect hN
  have hne : rdc_scaled Y ≠ [] := by
    intro hnil
    have := length_rdc_scaled Y
    rw [hnil, hwidth] at this
    simp at this
    omega
  obtain ⟨hlen, hval⟩ := rdc_core_spec hrect hG hN
  exact ⟨rdc_core Y, reverse_dummy_code_ok hne, hlen, hval⟩

/-- C9 witness: the non-one-hot matrix `[[1,1],[0,3]]` (a row with two set
columns and a row with value 3). -/
theorem claim_C9_reverse_dummy_code_witness :
    ∃ v, reverse_dummy_code [[1,1],[0,3]] = Except.ok v ∧
      v.length = ([[1,1],[0,3]] : Mat).length ∧
      ∀ i, i < ([[1,1],[0,3]] : Mat).length → v.getD i 0 =
        ∑ c in Finset.range 2, ((c : ℝ) + 1) * entry [[1,1],[0,3]] i c :=
  claim_C9_reverse_dummy_code [[1,1],[0,3]] 2 (by decide) (by norm_num) (by norm_num)

/-! ### dummy_code lemmas -/

theorem length_dummy_rows (g : List ℤ) : (dummy_rows g).length = g.length := by
  simp [dummy_rows]

theorem dummy_rows_row {g : List ℤ} {i : ℕ} (hi : i < g.length) :
    (dummy_rows g).getD i [] =
      (np_unique g).map (fun grp => if g.getD i 0 = grp then (1 : ℝ) else 0) := by
  unfold dummy_rows
  rw [getD_map _ [] 0 hi]

theorem dummy_rows_mem_length {g : List ℤ} {r : List ℝ} (h : r ∈ dummy_rows g) :
    r.length = (np_unique g).length := by
  unfold dummy_rows at h
  rcases List.mem_map.mp h with ⟨l, _, rfl⟩
  rw [List.length_map]

theorem dummy_rows_entry {g : List ℤ} {i c : ℕ} (hi : i < g.length)
    (hc : c < (np_unique g).length) :
    entry (dummy_rows g) i c =
      if g.getD i 0 = (np_unique g).getD c 0 then 1 else 0 := by
  unfold entry
  rw [dummy_rows_row hi, getD_map _ 0 0 hc]

theorem indicator_sum_zero (l : ℤ) (u : List ℤ) (h : l ∉ u) :
    (u.map (fun grp => if l = grp then (1 : ℝ) else 0)).sum = 0 := by
  induction u with
  | nil => rfl
  | cons a us ih =>
    rw [List.map_cons, List.sum_cons, if_neg (fun he => h (by rw [he]; simp)),
      ih (fun hm => h (by simp [hm])), add_zero]

theorem indicator_sum_one (l : ℤ) : ∀ u : List ℤ, u.Nodup → l ∈ u →
    (u.map (fun grp => if l = grp then (1 : ℝ) else 0)).sum = 1 := by
  intro u
  induction u with
  | nil => intro _ h; cases h
  | cons a us ih =>
    intro hnd hm
    rw [List.map_cons, List.sum_cons]
    by_cases hla : l = a
    · rw [if_pos hla, indicator_sum_zero l us (by rw [hla]; exact (List.nodup_cons.mp hnd).1),
        add_zero]
    · rw [if_neg hla, ih (List.nodup_cons.mp hnd).2
        (by rcases List.mem_cons.mp hm with h | h; exact absurd h hla; exact h), zero_add]

theorem weighted_indicator_zero (l : ℤ) (u : List ℤ) (h : l ∉ u) (F : ℕ → ℝ) :
    (∑ c in Finset.range u.length,
      F c * (if l = u.getD c 0 then (1 : ℝ) else 0)) = 0 := by
  apply Finset.sum_eq_zero
  intro c hc
  rw [Finset.mem_range] at hc
  rw [if_neg, mul_zero]
  intro he
  exact h (by rw [he]; exact getD_mem_of_lt 0 hc)

theorem weighted_indicator_sum (l : ℤ) : ∀ u : List ℤ, u.Nodup → l ∈ u → ∀ w : ℝ,
    (∑ c in Finset.range u.length,
      (w + (c : ℝ) + 1) * (if l = u.getD c 0 then (1 : ℝ) else 0)) =
    w + (u.indexOf l : ℝ) + 1 := by
  intro u
  induction u with
  | nil => intro _ h; cases h
  | cons a us ih =>
    intro hnd hm w
    rw [List.length_cons, Finset.sum_range_succ']
    simp only [List.getD_cons_succ, List.getD_cons_zero, Nat.cast_add, Nat.cast_one]
    by_cases hla : l = a
    · rw [if_pos hla]
      have hnotin : l ∉ us := by rw [hla]; exact (List.nodup_cons.mp hnd).1
      have hzero : (∑ c in Finset.range us.length,
          (w + ((c : ℝ) + 1) + 1) * (if l = us.getD c 0 then (1 : ℝ) else 0)) = 0 :=
        weighted_indicator_zero l us hnotin _
      rw [hzero, hla, List.indexOf_cons_self]
      push_cast
      ring
    · rw [if_neg hla, mul_zero, add_zero]
      have heq : (∑ c in Finset.range us.length,
          (w + ((c : ℝ) + 1) + 1) * (if l = us.getD c 0 then (1 : ℝ) else 0)) =
          (∑ c in Finset.range us.length,
          ((w + 1) + (c : ℝ) + 1) * (if l = us.getD c 0 then (1 : ℝ) else 0)) := by
        apply Finset.sum_congr rfl
        intro c _
        ring_nf
      rw [heq, ih (List.nodup_cons.mp hnd).2
        (by rcases List.mem_cons.mp hm with h | h; exact absurd h hla; exact h) (w + 1)]
      rw [List.indexOf_cons_ne _ (fun he => hla he.symm)]
      push_cast
      ring

/-! ### Claim C7: dummy_code structure -/

/-- C7 counterexample: for the empty grouping (`N = 0`, `G = 0`) the claim
predicts an `0×0` indicator matrix; the code instead raises the
`np.column_stack([])` ValueError. -/
theorem claim_C7_counterexample :
    dummy_code ([] : List ℤ) =
      Except.error "need at least one array to concatenate" := rfl

/-- C7 (amended, restricted to nonempty groupings): for every nonempty
length-`N` grouping with `G` distinct labels, `dummy_code` returns an
`N×G` matrix over `{0, 1}` whose columns follow the ascending unique
labels (`np_unique g` is strictly sorted and carries exactly the labels of
`g`): entry `(i, c)` is 1 iff row `i`'s label equals the `c`-th smallest
unique label, and consequently every row sums to exactly 1. -/
theorem claim_C7_dummy_code (g : List ℤ) (hg : g ≠ []) :
    ∃ D, dummy_code g = Except.ok D ∧
      D.length = g.length ∧
      (∀ r ∈ D, r.length = (np_unique g).length) ∧
      (np_unique g).Sorted (· < ·) ∧
      (∀ x : ℤ, x ∈ np_unique g ↔ x ∈ g) ∧
      (∀ i c, i < g.length → c < (np_unique g).length →
        entry D i c = if g.getD i 0 = (np_unique g).getD c 0 then 1 else 0) ∧
      (∀ i, i < g.length → (D.getD i []).sum = 1) := by
  have hune : np_unique g ≠ [] := fun h => hg ((np_unique_eq_nil_iff g).mp h)
  refine ⟨dummy_rows g, ?_, length_dummy_rows g, fun r hr => dummy_rows_mem_length hr,
    np_unique_sorted g, fun x => mem_np_unique,
    fun i c hi hc => dummy_rows_entry hi hc, ?_⟩
  · unfold dummy_code
    rw [if_neg hune]
  · intro i hi
    rw [dummy_rows_row hi]
    exact indicator_sum_one _ _ (np_unique_nodup g)
      (mem_np_unique.mpr (getD_mem_of_lt 0 hi))

/-- C7 witness: the grouping `[0,0,1,2,1]` from the specification's
worked example (labels 0, 1, 2). -/
theorem claim_C7_dummy_code_witness :
    ∃ D, dummy_code [0,0,1,2,1] = Except.ok D ∧
      D.length = ([0,0,1,2,1] : List ℤ).length ∧
      (∀ r ∈ D, r.length = (np_unique [0,0,1,2,1]).length) ∧
      (np_unique [0,0,1,2,1]).Sorted (· < ·) ∧
      (∀ x : ℤ, x ∈ np_unique [0,0,1,2,1] ↔ x ∈ ([0,0,1,2,1] : List ℤ)) ∧
      (∀ i c, i < ([0,0,1,2,1] : List ℤ).length → c < (np_unique [0,0,1,2,1]).length →
        entry D i c = if ([0,0,1,2,1] : List ℤ).getD i 0 =
          (np_unique [0,0,1,2,1]).getD c 0 then 1 else 0) ∧
      (∀ i, i < ([0,0,1,2,1] : List ℤ).length → (D.getD i []).sum = 1) :=
  claim_C7_dummy_code [0,0,1,2,1] (by decide)

/-! ### Claim C6: the dummy-coding round trip -/

/-- C6 counterexample: for the empty grouping the round trip cannot even
start — `dummy_code([])` raises the `np.column_stack([])` ValueError
instead of returning the (empty) recoded vector the claim asks for. -/
theorem claim_C6_counterexample :
    (dummy_code ([] : List ℤ)).isOk = false := rfl

/-- C6 (amended, restricted to nonempty groupings): for every nonempty
grouping `g` with `G` distinct labels,
`reverse_dummy_code(dummy_code(g))` succeeds and returns the length-`N`
vector assigning to row `i` the value `indexOf(g[i]) + 1` in the
ascending-sorted unique labels — the 1-based rank of `g[i]` among the `G`
unique labels — and two rows receive equal values iff their original
labels were equal. -/
theorem claim_C6_round_trip (g : List ℤ) (hg : g ≠ []) :
    ∃ D v, dummy_code g = Except.ok D ∧ reverse_dummy_code D = Except.ok v ∧
      v.length = g.length ∧
      (np_unique g).Sorted (· < ·) ∧
      (∀ x : ℤ, x ∈ np_unique g ↔ x ∈ g) ∧
      (∀ i, i < g.length →
        v.getD i 0 = ((np_unique g).indexOf (g.getD i 0) : ℝ) + 1) ∧
      (∀ i j, i < g.length → j < g.length →
        (v.getD i 0 = v.getD j 0 ↔ g.getD i 0 = g.getD j 0)) := by
  have hune : np_unique g ≠ [] := fun h => hg ((np_unique_eq_nil_iff g).mp h)
  have hG : 0 < (np_unique g).length := List.length_pos.mpr hune
  have hN : 0 < g.length := List.length_pos.mpr hg
  have hrect : ∀ r ∈ dummy_rows g, r.length = (np_unique g).length :=
    fun r hr => dummy_rows_mem_length hr
  have hND : 0 < (dummy_rows g).length := by rw [length_dummy_rows]; exact hN
  obtain ⟨hlen, hval⟩ := rdc_core_spec hrect hG hND
  have hwidth : width (dummy_rows g) = (np_unique g).length := by
    rw [width, headD_eq_getD_zero]
    exact row_length_of_rect hrect hND
  have hne : rdc_scaled (dummy_rows g) ≠ [] := by
    intro hnil
    have := length_rdc_scaled (dummy_rows g)
    rw [hnil, hwidth] at this
    simp at this
    omega
  have hentry : ∀ i, i < g.length →
      (rdc_core (dummy_rows g)).getD i 0 =
        ((np_unique g).indexOf (g.getD i 0) : ℝ) + 1 := by
    intro i hi
    rw [hval i (by rwa [length_dummy_rows])]
    have hsum : (∑ c in Finset.range (np_unique g).length,
        ((c : ℝ) + 1) * entry (dummy_rows g) i c) =
        (∑ c in Finset.range (np_unique g).length,
        ((0 : ℝ) + (c : ℝ) + 1) *
          (if g.getD i 0 = (np_unique g).getD c 0 then (1 : ℝ) else 0)) := by
      apply Finset.sum_congr rfl
      intro c hc
      rw [Finset.mem_range] at hc
      rw [dummy_rows_entry hi hc]
      ring_nf
    rw [hsum, weighted_indicator_sum (g.getD i 0) (np_unique g) (np_unique_nodup g)
      (mem_np_unique.mpr (getD_mem_of_lt 0 hi)) 0]
    ring
  refine ⟨dummy_rows g, rdc_core (dummy_rows g), ?_, reverse_dummy_code_ok hne,
    by rw [hlen, length_dummy_rows], np_unique_sorted g, fun x => mem_np_unique,
    hentry, ?_⟩
  · unfold dummy_code
    rw [if_neg hune]
  · intro i j hi hj
    rw [hentry i hi, hentry j hj]
    constructor
    · intro h
      have hidx : (np_unique g).indexOf (g.getD i 0) =
          (np_unique g).indexOf (g.getD j 0) := by
        have := add_right_cancel h
        exact_mod_cast this
      exact (List.indexOf_inj (mem_np_unique.mpr (getD_mem_of_lt 0 hi))
        (mem_np_unique.mpr (getD_mem_of_lt 0 hj))).mp hidx
    · intro h
      rw [h]

/-- C6 witness: the grouping `[7,3,7]` (unique labels `[3,7]`, so rows are
recoded to ranks 2, 1, 2). -/
theorem claim_C6_round_trip_witness :
    ∃ D v, dummy_code [7,3,7] = Except.ok D ∧ reverse_dummy_code D = Except.ok v ∧
      v.length = ([7,3,7] : List ℤ).length ∧
      (np_unique [7,3,7]).Sorted (· < ·) ∧
      (∀ x : ℤ, x ∈ np_unique [7,3,7] ↔ x ∈ ([7,3,7] : List ℤ)) ∧
      (∀ i, i < ([7,3,7] : List ℤ).length →
        v.getD i 0 = ((np_unique [7,3,7]).indexOf (([7,3,7] : List ℤ).getD i 0) : ℝ) + 1) ∧
      (∀ i j, i < ([7,3,7] : List ℤ).length → j < ([7,3,7] : List ℤ).length →
        (v.getD i 0 = v.getD j 0 ↔
          ([7,3,7] : List ℤ).getD i 0 = ([7,3,7] : List ℤ).getD j 0)) :=
  claim_C6_round_trip [7,3,7] (by decide)

/-! ### Store (heap) lemmas for the no-mutation claim -/

theorem getD_append_length {α : Type} :
    ∀ (s : List α) (a : α) (t : List α) (d : α),
      (s ++ a :: t).getD s.length d = a := by
  intro s
  induction s with
  | nil => intro a t d; rfl
  | cons x xs ih =>
    intro a t d
    rw [List.cons_append, List.length_cons, List.getD_cons_succ]
    exact ih a t d

theorem set_append_length {α : Type} :
    ∀ (s : List α) (a : α) (t : List α) (w : α),
      (s ++ a :: t).set s.length w = s ++ w :: t := by
  intro s
  induction s with
  | nil => intro a t w; rfl
  | cons x xs ih =>
    intro a t w
    rw [List.cons_append, List.length_cons, List.set_cons_succ, ih, List.cons_append]

theorem alloc_extends (s : Store) (v : PyArr) : s <+: (alloc s v).2 := ⟨[v], rfl⟩

theorem readM_append {u : Store} {r : ℕ} (h : r < u.length) (t : Store) :
    readM (u ++ t) r = readM u r := by
  unfold readM
  rw [List.getD_append _ _ _ _ h]

theorem readM_alloc_last (s : Store) (M : Mat) (t : Store) :
    readM (s ++ PyArr.mat M :: t) s.length = M := by
  unfold readM
  rw [getD_append_length]

theorem zscoreS_store (s : Store) (x : ℕ) :
    (zscoreS s x).2 =
      s ++ [PyArr.mat (readM s x), PyArr.mat (zscore (readM s x))] := by
  simp only [zscoreS, alloc, writeA]
  rw [readM_alloc_last s (readM s x) []]
  rw [readM_alloc_last (s ++ [PyArr.mat (readM s x)]) (zscoreRaw (readM s x)) []]
  rw [readM_append (show s.length < (s ++ [PyArr.mat (readM s x)]).length by simp)
    [PyArr.mat (zscoreRaw (readM s x))]]
  rw [readM_alloc_last s (readM s x) []]
  rw [set_append_length (s ++ [PyArr.mat (readM s x)])
    (PyArr.mat (zscoreRaw (readM s x))) []]
  rw [List.append_assoc]
  rfl

theorem normalizeS_store (s : Store) (x : ℕ) (axis : ℕ) :
    (normalizeS s x axis).2 =
      s ++ [PyArr.mat (readM s x), PyArr.mat (normalize (readM s x) axis)] := by
  simp only [normalizeS, alloc, writeA]
  rw [readM_alloc_last s (readM s x) []]
  rw [readM_alloc_last (s ++ [PyArr.mat (readM s x)])
    (normalizeDiv (readM s x) axis) []]
  rw [readM_append (show s.length < (s ++ [PyArr.mat (readM s x)]).length by simp)
    [PyArr.mat (normalizeDiv (readM s x) axis)]]
  rw [readM_alloc_last s (readM s x) []]
  rw [set_append_length (s ++ [PyArr.mat (readM s x)])
    (PyArr.mat (normalizeDiv (readM s x) axis)) []]
  rw [List.append_assoc]
  rfl

theorem storeExtends_zscoreS (s : Store) (x : ℕ) : s <+: (zscoreS s x).2 := by
  rw [zscoreS_store]
  exact ⟨_, rfl⟩

theorem storeExtends_normalizeS (s : Store) (x axis : ℕ) :
    s <+: (normalizeS s x axis).2 := by
  rw [normalizeS_store]
  exact ⟨_, rfl⟩

theorem storeExtends_computeS (s : Store) (x y : ℕ) :
    s <+: (_compute_xcorrS s x y).2 := by
  unfold _compute_xcorrS
  exact ((((storeExtends_zscoreS s x).trans
    (storeExtends_normalizeS _ _ 0)).trans
    (storeExtends_zscoreS _ _)).trans
    (storeExtends_normalizeS _ _ 0)).trans
    (⟨_, rfl⟩)

theorem storeExtends_blocksS (x y : ℕ) (g : List ℤ) :
    ∀ (l : List ℤ) (s : Store), s <+: (xcorrBlocksS x y g l s).2 := by
  intro l
  induction l with
  | nil => intro s; exact ⟨[], List.append_nil s⟩
  | cons grp rest ih =>
    intro s
    unfold xcorrBlocksS
    exact (((alloc_extends s _).trans (alloc_extends _ _)).trans
      (storeExtends_computeS _ _ _)).trans (ih _)

theorem storeExtends_xcorrS (s : Store) (x y : ℕ) (grouping : Option ℕ) :
    s <+: (xcorrS s x y grouping).2 := by
  match grouping with
  | Option.none => exact storeExtends_computeS s x y
  | Option.some gr =>
    show s <+: ((xcorrBlocksS x y (readI s gr) (np_unique (readI s gr)) s).2 ++ _)
    exact (storeExtends_blocksS x y _ _ s).trans (⟨_, rfl⟩)

theorem storeExtends_dummy_codeS (s : Store) (g : ℕ) : s <+: (dummy_codeS s g).2 :=
  ⟨_, rfl⟩

theorem storeExtends_reverse_dummy_codeS (s : Store) (y : ℕ) :
    s <+: (reverse_dummy_codeS s y).2 :=
  ⟨_, rfl⟩

theorem getD_of_store_extends {s t : Store} (h : s <+: t) {r : ℕ} (hr : r < s.length) :
    t.getD r (PyArr.mat []) = s.getD r (PyArr.mat []) := by
  obtain ⟨u, rfl⟩ := h
  exact List.getD_append _ _ _ _ hr

/-! ### Claim C10: no caller-visible mutation -/

/-- C10: none of the six array functions mutates its caller's arrays. In
the heap model, `np.array(...)` copies its argument into a fresh cell and
every in-place item assignment of the source targets a cell allocated
inside the same call, so after any of the six calls every preexisting
cell of the store holds exactly the value it held before (the store is
only extended). -/
theorem claim_C10_no_mutation (s : Store) (x y gr yref axis : ℕ)
    (grouping : Option ℕ) :
    (∀ r, r < s.length →
      ((zscoreS s x).2).getD r (PyArr.mat []) = s.getD r (PyArr.mat []))
  ∧ (∀ r, r < s.length →
      ((normalizeS s x axis).2).getD r (PyArr.mat []) = s.getD r (PyArr.mat []))
  ∧ (∀ r, r < s.length →
      ((_compute_xcorrS s x y).2).getD r (PyArr.mat []) = s.getD r (PyArr.mat []))
  ∧ (∀ r, r < s.length →
      ((xcorrS s x y grouping).2).getD r (PyArr.mat []) = s.getD r (PyArr.mat []))
  ∧ (∀ r, r < s.length →
      ((dummy_codeS s gr).2).getD r (PyArr.mat []) = s.getD r (PyArr.mat []))
  ∧ (∀ r, r < s.length →
      ((reverse_dummy_codeS s yref).2).getD r (PyArr.mat []) =
        s.getD r (PyArr.mat [])) :=
  ⟨fun _ hr => getD_of_store_extends (storeExtends_zscoreS s x) hr,
   fun _ hr => getD_of_store_extends (storeExtends_normalizeS s x axis) hr,
   fun _ hr => getD_of_store_extends (storeExtends_computeS s x y) hr,
   fun _ hr => getD_of_store_extends (storeExtends_xcorrS s x y grouping) hr,
   fun _ hr => getD_of_store_extends (storeExtends_dummy_codeS s gr) hr,
   fun _ hr => getD_of_store_extends (storeExtends_reverse_dummy_codeS s yref) hr⟩

/-- C10 witness: a concrete two-cell store (one matrix, one grouping
vector), with every call reading cell 0 or 1 and cell 0 checked. -/
theorem claim_C10_no_mutation_witness :
    ((zscoreS [PyArr.mat [[1,2],[3,4]], PyArr.ivec [0,1]] 0).2).getD 0 (PyArr.mat []) =
      ([PyArr.mat [[1,2],[3,4]], PyArr.ivec [0,1]] : Store).getD 0 (PyArr.mat [])
  ∧ ((normalizeS [PyArr.mat [[1,2],[3,4]], PyArr.ivec [0,1]] 0 0).2).getD 0 (PyArr.mat []) =
      ([PyArr.mat [[1,2],[3,4]], PyArr.ivec [0,1]] : Store).getD 0 (PyArr.mat [])
  ∧ ((_compute_xcorrS [PyArr.mat [[1,2],[3,4]], PyArr.ivec [0,1]] 0 0).2).getD 0 (PyArr.mat []) =
      ([PyArr.mat [[1,2],[3,4]], PyArr.ivec [0,1]] : Store).getD 0 (PyArr.mat [])
  ∧ ((xcorrS [PyArr.mat [[1,2],[3,4]], PyArr.ivec [0,1]] 0 0 (Option.some 1)).2).getD 0 (PyArr.mat []) =
      ([PyArr.mat [[1,2],[3,4]], PyArr.ivec [0,1]] : Store).getD 0 (PyArr.mat [])
  ∧ ((dummy_codeS [PyArr.mat [[1,2],[3,4]], PyArr.ivec [0,1]] 1).2).getD 0 (PyArr.mat []) =
      ([PyArr.mat [[1,2],[3,4]], PyArr.ivec [0,1]] : Store).getD 0 (PyArr.mat [])
  ∧ ((reverse_dummy_codeS [PyArr.mat [[1,2],[3,4]], PyArr.ivec [0,1]] 0).2).getD 0 (PyArr.mat []) =
      ([PyArr.mat [[1,2],[3,4]], PyArr.ivec [0,1]] : Store).getD 0 (PyArr.mat []) :=
  ⟨(claim_C10_no_mutation [PyArr.mat [[1,2],[3,4]], PyArr.ivec [0,1]] 0 0 1 0 0
      (Option.some 1)).1 0 (by norm_num),
   (claim_C10_no_mutation [PyArr.mat [[1,2],[3,4]], PyArr.ivec [0,1]] 0 0 1 0 0
      (Option.some 1)).2.1 0 (by norm_num),
   (claim_C10_no_mutation [PyArr.mat [[1,2],[3,4]], PyArr.ivec [0,1]] 0 0 1 0 0
      (Option.some 1)).2.2.1 0 (by norm_num),
   (claim_C10_no_mutation [PyArr.mat [[1,2],[3,4]], PyArr.ivec [0,1]] 0 0 1 0 0
      (Option.some 1)).2.2.2.1 0 (by norm_num),
   (claim_C10_no_mutation [PyArr.mat [[1,2],[3,4]], PyArr.ivec [0,1]] 0 0 1 0 0
      (Option.some 1)).2.2.2.2.1 0 (by norm_num),
   (claim_C10_no_mutation [PyArr.mat [[1,2],[3,4]], PyArr.ivec [0,1]] 0 0 1 0 0
      (Option.some 1)).2.2.2.2.2 0 (by norm_num)⟩

end pyls
